import Mathlib

/-!
Verification of the streaming SVG path parser (`PathParser`) and the
progressive canvas renderer (`CanvasDrawer`) from `static/path-parser.js`.

The JavaScript source is shallowly embedded:
* strings are `List Char` (fragments arrive as decoded text, so character
  granularity is the faithful unit of splitting);
* JavaScript numbers are modelled as exact rationals `ℚ` (the standard
  idealisation: the source does only field arithmetic on coordinates, plus
  `Math.sqrt`, which is modelled by a computable approximation `sqrtQ`;
  every theorem below depends only on the sign of the computed lengths,
  never on their exact values);
* the regular expressions of the source are compiled by hand into
  scanning functions over `List Char`, following the exact leftmost-match
  and greedy/lazy semantics of the originals;
* the callback side effects (`onSegment` / `onWarning`) are modelled by
  returning the emitted lists;
* the one genuinely non-terminating loop of the source (`parseD`'s token
  walk, which spins forever on a numeric token in command position) is
  modelled by a `diverged` flag: the moment the JavaScript loop would spin,
  the model stops and raises the flag, so the model's emitted lists agree
  with everything the JavaScript code ever observably emits.
-/

namespace GoodDrawer

/-- Characters of the embedded strings. -/
abbrev Str := List Char

/-! ### Segments, styles, warnings (the data model of the parser) -/

/-- Coordinate part of one drawing instruction, as built by `parseD`
(`this.emit(type, coords)` in the source); the style snapshot is attached
separately by `emit`. -/
inductive Seg where
  | moveTo (x y : ℚ)
  | lineTo (x y : ℚ)
  | quadTo (x1 y1 x y : ℚ)
  | cubicTo (x1 y1 x2 y2 x y : ℚ)
  | closePath (x y : ℚ)
deriving Repr, DecidableEq

/-- Style snapshot `{stroke, strokeWidth}` carried by every emitted segment. -/
structure Style where
  stroke : Str
  strokeWidth : ℚ
deriving Repr, DecidableEq

/-- A fully emitted segment: coordinates plus the style snapshot taken at
emission time (`{...this.currentStyle}`). -/
structure Segment where
  seg : Seg
  style : Style
deriving Repr, DecidableEq

/-- Warnings of the source (`this.warn(type, details)`).  The `details`
object and the 100-character buffer tail are diagnostics only; the model
keeps the discriminating data (warning kind, offending token, buffer
size). -/
inductive Warn where
  | parseError
  | unknownCommand (cmd : Str)
  | bufferOverflow (size : Nat)
deriving Repr, DecidableEq

/-! ### Tokenizer

The source tokenizes a `d` attribute with
`d.match(/[MmLlHhVvCcSsQqTtAaZz]|[-+]?(?:\d+\.?\d*|\.\d+)(?:[eE][-+]?\d+)?/g)`.
A global regex match scans left to right; at the leftmost position where
the pattern matches, the alternation tries the command-letter branch
first, then the (greedy) number branch; on failure the scan advances one
character. -/

/-- A command letter (`[MmLlHhVvCcSsQqTtAaZz]`). -/
def isCmdChar (c : Char) : Bool :=
  c = 'M' ∨ c = 'm' ∨ c = 'L' ∨ c = 'l' ∨ c = 'H' ∨ c = 'h' ∨ c = 'V' ∨ c = 'v' ∨
  c = 'C' ∨ c = 'c' ∨ c = 'S' ∨ c = 's' ∨ c = 'Q' ∨ c = 'q' ∨ c = 'T' ∨ c = 't' ∨
  c = 'A' ∨ c = 'a' ∨ c = 'Z' ∨ c = 'z'

/-- Decimal digit (`\d`). -/
def isDigit (c : Char) : Bool := '0' ≤ c ∧ c ≤ '9'

/-- Maximal leading run of digits (`\d*` greedy), returning `(run, rest)`. -/
def spanDigits : Str → Str × Str
  | [] => ([], [])
  | c :: t =>
    if isDigit c then
      let r := spanDigits t
      (c :: r.1, r.2)
    else ([], c :: t)

/-- Mantissa alternative `(?:\d+\.?\d*|\.\d+)` (greedy), returning the
matched characters and the rest, or `none` when neither branch matches. -/
def matchMantissa (s : Str) : Option (Str × Str) :=
  let r1 := spanDigits s
  if r1.1 ≠ [] then
    match r1.2 with
    | '.' :: r2 =>
      let r3 := spanDigits r2
      some (r1.1 ++ '.' :: r3.1, r3.2)
    | _ => some (r1.1, r1.2)
  else
    match s with
    | '.' :: r2 =>
      let r3 := spanDigits r2
      if r3.1 ≠ [] then some ('.' :: r3.1, r3.2) else none
    | _ => none

/-- Optional exponent `(?:[eE][-+]?\d+)?`: returns `(consumed, rest)`;
when the group cannot match it consumes nothing. -/
def matchExpOpt (s : Str) : Str × Str :=
  match s with
  | [] => ([], [])
  | c :: rest =>
    if c = 'e' ∨ c = 'E' then
      match rest with
      | [] => ([], s)
      | c2 :: rest2 =>
        if c2 = '+' ∨ c2 = '-' then
          let r := spanDigits rest2
          if r.1 ≠ [] then (c :: c2 :: r.1, r.2) else ([], s)
        else
          let r := spanDigits rest
          if r.1 ≠ [] then (c :: r.1, r.2) else ([], s)
    else ([], s)

/-- Number alternative `[-+]?(?:\d+\.?\d*|\.\d+)(?:[eE][-+]?\d+)?` matched
at the current position, returning `(token, rest)` when it matches. -/
def matchNumber (s : Str) : Option (Str × Str) :=
  match s with
  | [] => none
  | c :: rest =>
    if c = '+' ∨ c = '-' then
      match matchMantissa rest with
      | some (m, r) =>
        let e := matchExpOpt r
        some (c :: m ++ e.1, e.2)
      | none => none
    else
      match matchMantissa s with
      | some (m, r) =>
        let e := matchExpOpt r
        some (m ++ e.1, e.2)
      | none => none

/-- One pass of the global tokenizing regex, with fuel (each step consumes
at least one character, so `s.length + 1` fuel never runs out; the fuel is
only a termination device). -/
def tokenizeF : Nat → Str → List Str
  | 0, _ => []
  | _ + 1, [] => []
  | fuel + 1, c :: rest =>
    if isCmdChar c then [c] :: tokenizeF fuel rest
    else
      match matchNumber (c :: rest) with
      | some (t, r) => t :: tokenizeF fuel r
      | none => tokenizeF fuel rest

/-- `d.match(/[MmLlHhVvCcSsQqTtAaZz]|[-+]?(?:\d+\.?\d*|\.\d+)(?:[eE][-+]?\d+)?/g)`,
as the list of matched tokens (`null` becomes `[]`, which `parseD` treats
identically). -/
def tokenize (s : Str) : List Str := tokenizeF (s.length + 1) s

/-! ### Numeric values

`readNum` applies `parseFloat` to a token and maps `NaN` to `0`.
`parseFloat` of a token returns the value of its longest numeric prefix,
or `NaN` when there is none; the model computes that value exactly in `ℚ`
and returns `0` in the `NaN` case, which is precisely the composite
`isNaN(val) ? 0 : val` of the source. -/

/-- Natural number denoted by a digit run. -/
def natOfDigits (s : Str) : Nat :=
  s.foldl (fun n c => 10 * n + (c.toNat - '0'.toNat)) 0

/-- Value of a matched mantissa (digit run, optional dot, digit run). -/
def mantissaVal (m : Str) : ℚ :=
  let r := spanDigits m
  match r.2 with
  | '.' :: d2 => (natOfDigits r.1 : ℚ) + (natOfDigits d2 : ℚ) / ((10 : ℚ) ^ d2.length)
  | _ => (natOfDigits r.1 : ℚ)

/-- Value of a matched optional exponent part (`[]` means exponent 0). -/
def expVal (e : Str) : ℤ :=
  match e with
  | [] => 0
  | _ :: rest =>
    match rest with
    | '-' :: d => -(natOfDigits d : ℤ)
    | '+' :: d => (natOfDigits d : ℤ)
    | d => (natOfDigits d : ℤ)

/-- `10 ^ z` over `ℚ` for an integer exponent. -/
def tenPow (z : ℤ) : ℚ :=
  if 0 ≤ z then (10 : ℚ) ^ z.toNat else 1 / (10 : ℚ) ^ (-z).toNat

/-- Exact value of the longest numeric prefix of a token, `0` when there is
none: the model of `isNaN(parseFloat(t)) ? 0 : parseFloat(t)`. -/
def parseNum (s : Str) : ℚ :=
  match s with
  | [] => 0
  | c :: rest =>
    if c = '-' then
      match matchMantissa rest with
      | some (m, r) => -(mantissaVal m * tenPow (expVal (matchExpOpt r).1))
      | none => 0
    else if c = '+' then
      match matchMantissa rest with
      | some (m, r) => mantissaVal m * tenPow (expVal (matchExpOpt r).1)
      | none => 0
    else
      match matchMantissa s with
      | some (m, r) => mantissaVal m * tenPow (expVal (matchExpOpt r).1)
      | none => 0

/-- The test `/^[-+.\d]/.test(t)` used by `parseD` to recognise a numeric
token. -/
def isNumTok (t : Str) : Bool :=
  match t with
  | [] => false
  | c :: _ => c = '-' ∨ c = '+' ∨ c = '.' ∨ isDigit c

/-! ### The token walk of `parseD`

Every `case` of the `switch` has an inner `while` loop that keeps
consuming coordinate groups while the next token passes `isNumTok`; the
loops below embed those `while` bodies one-to-one.  `readNum()` pops the
next token and yields `parseNum` of it, or yields `0` without popping
when the index is already past the end; the short patterns of each loop
spell out exactly the end-of-token-list behaviour of the corresponding
sequence of `readNum()` calls (after which `i` equals `tokens.length`,
so the `while` loop exits). -/

/-- Result of one inner command loop: emitted segments, remaining tokens,
and the updated pen position (`currentX`/`currentY`). -/
structure LoopRes where
  segs : List Seg
  rest : List Str
  cx : ℚ
  cy : ℚ
deriving Repr, DecidableEq

/-- `case 'L'` loop (also the implicit-lineto loop of `case 'M'`). -/
def loopLineAbs : List Str → ℚ → ℚ → LoopRes
  | [], cx, cy => ⟨[], [], cx, cy⟩
  | t1 :: rest, cx, cy =>
    if isNumTok t1 then
      match rest with
      | [] => ⟨[Seg.lineTo (parseNum t1) 0], [], parseNum t1, 0⟩
      | t2 :: rest2 =>
        let x := parseNum t1
        let y := parseNum t2
        let r := loopLineAbs rest2 x y
        ⟨Seg.lineTo x y :: r.segs, r.rest, r.cx, r.cy⟩
    else ⟨[], t1 :: rest, cx, cy⟩

/-- `case 'l'` loop (also the implicit-lineto loop of `case 'm'`). -/
def loopLineRel : List Str → ℚ → ℚ → LoopRes
  | [], cx, cy => ⟨[], [], cx, cy⟩
  | t1 :: rest, cx, cy =>
    if isNumTok t1 then
      match rest with
      | [] => ⟨[Seg.lineTo (cx + parseNum t1) (cy + 0)], [], cx + parseNum t1, cy + 0⟩
      | t2 :: rest2 =>
        let nx := cx + parseNum t1
        let ny := cy + parseNum t2
        let r := loopLineRel rest2 nx ny
        ⟨Seg.lineTo nx ny :: r.segs, r.rest, r.cx, r.cy⟩
    else ⟨[], t1 :: rest, cx, cy⟩

/-- `case 'H'` loop: one ordinate per repetition, `currentY` held fixed. -/
def loopHAbs : List Str → ℚ → ℚ → LoopRes
  | [], cx, cy => ⟨[], [], cx, cy⟩
  | t1 :: rest, cx, cy =>
    if isNumTok t1 then
      let x := parseNum t1
      let r := loopHAbs rest x cy
      ⟨Seg.lineTo x cy :: r.segs, r.rest, r.cx, r.cy⟩
    else ⟨[], t1 :: rest, cx, cy⟩

/-- `case 'h'` loop. -/
def loopHRel : List Str → ℚ → ℚ → LoopRes
  | [], cx, cy => ⟨[], [], cx, cy⟩
  | t1 :: rest, cx, cy =>
    if isNumTok t1 then
      let x := cx + parseNum t1
      let r := loopHRel rest x cy
      ⟨Seg.lineTo x cy :: r.segs, r.rest, r.cx, r.cy⟩
    else ⟨[], t1 :: rest, cx, cy⟩

/-- `case 'V'` loop. -/
def loopVAbs : List Str → ℚ → ℚ → LoopRes
  | [], cx, cy => ⟨[], [], cx, cy⟩
  | t1 :: rest, cx, cy =>
    if isNumTok t1 then
      let y := parseNum t1
      let r := loopVAbs rest cx y
      ⟨Seg.lineTo cx y :: r.segs, r.rest, r.cx, r.cy⟩
    else ⟨[], t1 :: rest, cx, cy⟩

/-- `case 'v'` loop. -/
def loopVRel : List Str → ℚ → ℚ → LoopRes
  | [], cx, cy => ⟨[], [], cx, cy⟩
  | t1 :: rest, cx, cy =>
    if isNumTok t1 then
      let y := cy + parseNum t1
      let r := loopVRel rest cx y
      ⟨Seg.lineTo cx y :: r.segs, r.rest, r.cx, r.cy⟩
    else ⟨[], t1 :: rest, cx, cy⟩

/-- `case 'C'` loop: two control points and an endpoint per repetition. -/
def loopCubicAbs : List Str → ℚ → ℚ → LoopRes
  | [], cx, cy => ⟨[], [], cx, cy⟩
  | t1 :: rest, cx, cy =>
    if isNumTok t1 then
      match rest with
      | [] => ⟨[Seg.cubicTo (parseNum t1) 0 0 0 0 0], [], 0, 0⟩
      | [t2] => ⟨[Seg.cubicTo (parseNum t1) (parseNum t2) 0 0 0 0], [], 0, 0⟩
      | [t2, t3] => ⟨[Seg.cubicTo (parseNum t1) (parseNum t2) (parseNum t3) 0 0 0], [], 0, 0⟩
      | [t2, t3, t4] =>
        ⟨[Seg.cubicTo (parseNum t1) (parseNum t2) (parseNum t3) (parseNum t4) 0 0], [], 0, 0⟩
      | [t2, t3, t4, t5] =>
        ⟨[Seg.cubicTo (parseNum t1) (parseNum t2) (parseNum t3) (parseNum t4) (parseNum t5) 0],
          [], parseNum t5, 0⟩
      | t2 :: t3 :: t4 :: t5 :: t6 :: rest6 =>
        let x := parseNum t5
        let y := parseNum t6
        let r := loopCubicAbs rest6 x y
        ⟨Seg.cubicTo (parseNum t1) (parseNum t2) (parseNum t3) (parseNum t4) x y :: r.segs,
          r.rest, r.cx, r.cy⟩
    else ⟨[], t1 :: rest, cx, cy⟩

/-- `case 'c'` loop: each relative offset is added to the pen position of
this repetition independently; the pen then advances by the final delta. -/
def loopCubicRel : List Str → ℚ → ℚ → LoopRes
  | [], cx, cy => ⟨[], [], cx, cy⟩
  | t1 :: rest, cx, cy =>
    if isNumTok t1 then
      match rest with
      | [] => ⟨[Seg.cubicTo (cx + parseNum t1) (cy + 0) (cx + 0) (cy + 0) (cx + 0) (cy + 0)],
          [], cx + 0, cy + 0⟩
      | [t2] =>
        ⟨[Seg.cubicTo (cx + parseNum t1) (cy + parseNum t2) (cx + 0) (cy + 0) (cx + 0) (cy + 0)],
          [], cx + 0, cy + 0⟩
      | [t2, t3] =>
        ⟨[Seg.cubicTo (cx + parseNum t1) (cy + parseNum t2) (cx + parseNum t3) (cy + 0)
            (cx + 0) (cy + 0)], [], cx + 0, cy + 0⟩
      | [t2, t3, t4] =>
        ⟨[Seg.cubicTo (cx + parseNum t1) (cy + parseNum t2) (cx + parseNum t3) (cy + parseNum t4)
            (cx + 0) (cy + 0)], [], cx + 0, cy + 0⟩
      | [t2, t3, t4, t5] =>
        ⟨[Seg.cubicTo (cx + parseNum t1) (cy + parseNum t2) (cx + parseNum t3) (cy + parseNum t4)
            (cx + parseNum t5) (cy + 0)], [], cx + parseNum t5, cy + 0⟩
      | t2 :: t3 :: t4 :: t5 :: t6 :: rest6 =>
        let nx := cx + parseNum t5
        let ny := cy + parseNum t6
        let r := loopCubicRel rest6 nx ny
        ⟨Seg.cubicTo (cx + parseNum t1) (cy + parseNum t2) (cx + parseNum t3) (cy + parseNum t4)
            nx ny :: r.segs, r.rest, r.cx, r.cy⟩
    else ⟨[], t1 :: rest, cx, cy⟩

/-- `case 'Q'` loop. -/
def loopQuadAbs : List Str → ℚ → ℚ → LoopRes
  | [], cx, cy => ⟨[], [], cx, cy⟩
  | t1 :: rest, cx, cy =>
    if isNumTok t1 then
      match rest with
      | [] => ⟨[Seg.quadTo (parseNum t1) 0 0 0], [], 0, 0⟩
      | [t2] => ⟨[Seg.quadTo (parseNum t1) (parseNum t2) 0 0], [], 0, 0⟩
      | [t2, t3] => ⟨[Seg.quadTo (parseNum t1) (parseNum t2) (parseNum t3) 0], [], parseNum t3, 0⟩
      | t2 :: t3 :: t4 :: rest4 =>
        let x := parseNum t3
        let y := parseNum t4
        let r := loopQuadAbs rest4 x y
        ⟨Seg.quadTo (parseNum t1) (parseNum t2) x y :: r.segs, r.rest, r.cx, r.cy⟩
    else ⟨[], t1 :: rest, cx, cy⟩

/-- `case 'q'` loop. -/
def loopQuadRel : List Str → ℚ → ℚ → LoopRes
  | [], cx, cy => ⟨[], [], cx, cy⟩
  | t1 :: rest, cx, cy =>
    if isNumTok t1 then
      match rest with
      | [] => ⟨[Seg.quadTo (cx + parseNum t1) (cy + 0) (cx + 0) (cy + 0)], [], cx + 0, cy + 0⟩
      | [t2] =>
        ⟨[Seg.quadTo (cx + parseNum t1) (cy + parseNum t2) (cx + 0) (cy + 0)], [], cx + 0, cy + 0⟩
      | [t2, t3] =>
        ⟨[Seg.quadTo (cx + parseNum t1) (cy + parseNum t2) (cx + parseNum t3) (cy + 0)],
          [], cx + parseNum t3, cy + 0⟩
      | t2 :: t3 :: t4 :: rest4 =>
        let nx := cx + parseNum t3
        let ny := cy + parseNum t4
        let r := loopQuadRel rest4 nx ny
        ⟨Seg.quadTo (cx + parseNum t1) (cy + parseNum t2) nx ny :: r.segs, r.rest, r.cx, r.cy⟩
    else ⟨[], t1 :: rest, cx, cy⟩

/-- Arc parameter skip: `for (let j = 0; j < 7 && i < tokens.length; j++)
if (isNumTok(tokens[i])) readNum();` — note that a non-numeric token stops
consumption but the counter `j` still runs to 7. -/
def skipArc : Nat → List Str → List Str
  | 0, ts => ts
  | _ + 1, [] => []
  | j + 1, t :: rest => if isNumTok t then skipArc j rest else skipArc j (t :: rest)

/-- Smooth-curve parameter skip: `while (i < len && isNumTok(tokens[i])) readNum();`. -/
def skipNums : List Str → List Str
  | [] => []
  | t :: rest => if isNumTok t then skipNums rest else t :: rest

/-- Outcome of the `parseD` token walk.  `diverged = true` marks the point
at which the JavaScript `while` loop would spin forever (a numeric token in
command position runs `continue` without advancing `i`): nothing is emitted
from that point on, and the call never returns. -/
structure DResult where
  segs : List Seg
  warns : List Warn
  diverged : Bool
deriving Repr, DecidableEq

/-- Prepend the emissions of one iteration of the token walk. -/
def prependD (ss : List Seg) (ws : List Warn) (r : DResult) : DResult :=
  ⟨ss ++ r.segs, ws ++ r.warns, r.diverged⟩

/-- The `while (i < tokens.length)` walk of `parseD`, with fuel.  Every
iteration that recurses consumes at least the command token, so fuel
`tokens.length + 1` (used by `parseD` below) never runs out; fuel is only
a termination device and the fuel-exhausted value is never reached. -/
def parseDLoopF : Nat → List Str → ℚ → ℚ → ℚ → ℚ → DResult
  | 0, _, _, _, _, _ => ⟨[], [], false⟩
  | _ + 1, [], _, _, _, _ => ⟨[], [], false⟩
  | fuel + 1, t :: rest, cx, cy, sx, sy =>
    if isNumTok t then ⟨[], [], true⟩
    else
      match t with
      | ['M'] =>
        match rest with
        | [] => prependD [Seg.moveTo 0 0] [] (parseDLoopF fuel [] 0 0 0 0)
        | [t1] =>
          prependD [Seg.moveTo (parseNum t1) 0] []
            (parseDLoopF fuel [] (parseNum t1) 0 (parseNum t1) 0)
        | t1 :: t2 :: r2 =>
          let x := parseNum t1
          let y := parseNum t2
          let r := loopLineAbs r2 x y
          prependD (Seg.moveTo x y :: r.segs) [] (parseDLoopF fuel r.rest r.cx r.cy x y)
      | ['m'] =>
        match rest with
        | [] => prependD [Seg.moveTo (cx + 0) (cy + 0)] []
            (parseDLoopF fuel [] (cx + 0) (cy + 0) (cx + 0) (cy + 0))
        | [t1] =>
          prependD [Seg.moveTo (cx + parseNum t1) (cy + 0)] []
            (parseDLoopF fuel [] (cx + parseNum t1) (cy + 0) (cx + parseNum t1) (cy + 0))
        | t1 :: t2 :: r2 =>
          let nx := cx + parseNum t1
          let ny := cy + parseNum t2
          let r := loopLineRel r2 nx ny
          prependD (Seg.moveTo nx ny :: r.segs) [] (parseDLoopF fuel r.rest r.cx r.cy nx ny)
      | ['L'] =>
        let r := loopLineAbs rest cx cy
        prependD r.segs [] (parseDLoopF fuel r.rest r.cx r.cy sx sy)
      | ['l'] =>
        let r := loopLineRel rest cx cy
        prependD r.segs [] (parseDLoopF fuel r.rest r.cx r.cy sx sy)
      | ['H'] =>
        let r := loopHAbs rest cx cy
        prependD r.segs [] (parseDLoopF fuel r.rest r.cx r.cy sx sy)
      | ['h'] =>
        let r := loopHRel rest cx cy
        prependD r.segs [] (parseDLoopF fuel r.rest r.cx r.cy sx sy)
      | ['V'] =>
        let r := loopVAbs rest cx cy
        prependD r.segs [] (parseDLoopF fuel r.rest r.cx r.cy sx sy)
      | ['v'] =>
        let r := loopVRel rest cx cy
        prependD r.segs [] (parseDLoopF fuel r.rest r.cx r.cy sx sy)
      | ['C'] =>
        let r := loopCubicAbs rest cx cy
        prependD r.segs [] (parseDLoopF fuel r.rest r.cx r.cy sx sy)
      | ['c'] =>
        let r := loopCubicRel rest cx cy
        prependD r.segs [] (parseDLoopF fuel r.rest r.cx r.cy sx sy)
      | ['Q'] =>
        let r := loopQuadAbs rest cx cy
        prependD r.segs [] (parseDLoopF fuel r.rest r.cx r.cy sx sy)
      | ['q'] =>
        let r := loopQuadRel rest cx cy
        prependD r.segs [] (parseDLoopF fuel r.rest r.cx r.cy sx sy)
      | ['Z'] =>
        prependD [Seg.closePath sx sy] [] (parseDLoopF fuel rest sx sy sx sy)
      | ['z'] =>
        prependD [Seg.closePath sx sy] [] (parseDLoopF fuel rest sx sy sx sy)
      | ['A'] =>
        prependD [] [Warn.unknownCommand t] (parseDLoopF fuel (skipArc 7 rest) cx cy sx sy)
      | ['a'] =>
        prependD [] [Warn.unknownCommand t] (parseDLoopF fuel (skipArc 7 rest) cx cy sx sy)
      | ['S'] =>
        prependD [] [Warn.unknownCommand t] (parseDLoopF fuel (skipNums rest) cx cy sx sy)
      | ['s'] =>
        prependD [] [Warn.unknownCommand t] (parseDLoopF fuel (skipNums rest) cx cy sx sy)
      | ['T'] =>
        prependD [] [Warn.unknownCommand t] (parseDLoopF fuel (skipNums rest) cx cy sx sy)
      | ['t'] =>
        prependD [] [Warn.unknownCommand t] (parseDLoopF fuel (skipNums rest) cx cy sx sy)
      | _ =>
        prependD [] [Warn.unknownCommand t] (parseDLoopF fuel rest cx cy sx sy)

/-- `PathParser.parseD`: tokenize the `d` attribute and walk the tokens
from pen position `(0,0)` and sub-path start `(0,0)` (the walk's state
variables are local to each `parseD` call in the source). -/
def parseD (d : Str) : DResult :=
  parseDLoopF ((tokenize d).length + 1) (tokenize d) 0 0 0 0

/-! ### Attribute extraction (`parsePath`)

The attribute regexes are scanned by hand: a regex without anchors finds
its leftmost match, so each scanner tries a match at every position from
the left and moves one character on failure. -/

/-- Whitespace class `\s` (ASCII part; the source never meets the Unicode
space characters that `\s` additionally covers). -/
def isWsChar (c : Char) : Bool :=
  c = ' ' ∨ c = '\t' ∨ c = '\n' ∨ c = '\r' ∨ c = '\x0b' ∨ c = '\x0c'

/-- Drop leading whitespace (`\s*`). -/
def dropWs : Str → Str
  | [] => []
  | c :: t => if isWsChar c then dropWs t else c :: t

/-- Maximal leading whitespace run (`\s+` greedy), as `(run, rest)`. -/
def wsSpan : Str → Str × Str
  | [] => ([], [])
  | c :: t =>
    if isWsChar c then
      let r := wsSpan t
      (c :: r.1, r.2)
    else ([], c :: t)

/-- Case-insensitive literal match: consume `p` (case-insensitively) from
the head of the input, returning the rest. -/
def stripCI : Str → Str → Option Str
  | [], s => some s
  | _ :: _, [] => none
  | p :: ps, c :: cs => if p.toLower = c.toLower then stripCI ps cs else none

/-- `([^q]*)q`: capture up to the next occurrence of the quote `q`, failing
when the quote never comes. -/
def takeUntil (q : Char) : Str → Option Str
  | [] => none
  | c :: rest => if c = q then some [] else (takeUntil q rest).map (fun v => c :: v)

/-- Try `d\s*=\s*q([^q]*)q` (with `i` flag on the `d`) at this position. -/
def tryDAt (q : Char) (s : Str) : Option Str :=
  match s with
  | [] => none
  | c :: rest =>
    if c.toLower = 'd' then
      match dropWs rest with
      | '=' :: r2 =>
        match dropWs r2 with
        | c2 :: r3 => if c2 = q then takeUntil q r3 else none
        | [] => none
      | _ => none
    else none

/-- Leftmost match of `attrs.match(/d\s*=\s*q([^q]*)q/i)` for quote `q`. -/
def findDAttr (q : Char) : Str → Option Str
  | [] => none
  | c :: rest =>
    match tryDAt q (c :: rest) with
    | some v => some v
    | none => findDAttr q rest

/-- Either quote character (`["']`). -/
def isQuoteChar (c : Char) : Bool := c = '"' ∨ c = '\''

/-- Maximal run of non-quote characters (`[^"']+` greedy), as `(run, rest)`. -/
def spanNonQuote : Str → Str × Str
  | [] => ([], [])
  | c :: t =>
    if isQuoteChar c then ([], c :: t)
    else
      let r := spanNonQuote t
      (c :: r.1, r.2)

/-- `["']([^"']+)["']` at this position: an opening quote of either kind, a
non-empty capture, and a closing quote of either kind. -/
def matchQuoted (s : Str) : Option Str :=
  match s with
  | [] => none
  | c :: rest =>
    if isQuoteChar c then
      let r := spanNonQuote rest
      if r.1 ≠ [] then
        match r.2 with
        | c2 :: _ => if isQuoteChar c2 then some r.1 else none
        | [] => none
      else none
    else none

/-- Try `pat\s*=\s*["']([^"']+)["']` (with `i` flag) at this position. -/
def tryAttrAt (pat : Str) (s : Str) : Option Str :=
  match stripCI pat s with
  | some r =>
    match dropWs r with
    | '=' :: r2 => matchQuoted (dropWs r2)
    | _ => none
  | none => none

/-- Leftmost match of `attrs.match(/pat\s*=\s*["']([^"']+)["']/i)`. -/
def findAttrFrom (pat : Str) : Str → Option Str
  | [] => none
  | c :: rest =>
    match tryAttrAt pat (c :: rest) with
    | some v => some v
    | none => findAttrFrom pat rest

/-- The literal of the stroke-colour attribute regex. -/
def strokePat : Str := "stroke".toList

/-- The literal of the stroke-width attribute regex. -/
def widthPat : Str := "stroke-width".toList

/-- Result of `parsePath` on one element's attribute text. -/
structure PathRes where
  segs : List Segment
  warns : List Warn
  diverged : Bool
  style : Style
deriving Repr, DecidableEq

/-- `PathParser.parsePath(attrs)`: extract the `d` attribute (double-quoted
form first, then single-quoted), update `currentStyle` from the optional
`stroke` / `stroke-width` attributes, then run `parseD`.  The width update
is `parseFloat(w) || 3`: a `NaN` or `0` result of `parseFloat` — exactly the
case `parseNum v = 0` of the model — falls back to the default `3`. -/
def parsePath (attrs : Str) (style : Style) : PathRes :=
  match (findDAttr '"' attrs).orElse (fun _ => findDAttr '\'' attrs) with
  | none => ⟨[], [Warn.parseError], false, style⟩
  | some d =>
    let style1 :=
      match findAttrFrom strokePat attrs with
      | some v => { style with stroke := v }
      | none => style
    let style2 :=
      match findAttrFrom widthPat attrs with
      | some v => { style1 with strokeWidth := if parseNum v = 0 then 3 else parseNum v }
      | none => style1
    let r := parseD d
    ⟨r.segs.map (fun s => ⟨s, style2⟩), r.warns, r.diverged, style2⟩

/-! ### Element extraction (`extractPaths`) and `feed` -/

/-- First occurrence of `/>`: splits the input into the part before it and
the part after it. -/
def findClose : Str → Option (Str × Str)
  | [] => none
  | [_] => none
  | c :: d :: rest =>
    if c = '/' ∧ d = '>' then some ([], rest)
    else (findClose (d :: rest)).map (fun r => (c :: r.1, r.2))

/-- The literal of the path-element regex. -/
def pathPat : Str := "<path".toList

/-- Try `<path\s+([\s\S]*?)\/>` (with `i` flag) at this position: the
greedy `\s+` takes the whole whitespace run (it must be non-empty), and
the lazy group then ends at the first following `/>` (no `/>` can begin
inside the whitespace run, so greediness of `\s+` is irrelevant to the
match extent).  Returns `(capture, rest after the match)`. -/
def tryPathAt (s : Str) : Option (Str × Str) :=
  match stripCI pathPat s with
  | some r =>
    match wsSpan r with
    | ([], _) => none
    | (_ :: _, r2) => findClose r2
  | none => none

/-- Leftmost match of the path-element regex after a given position, as
`exec` with `lastIndex` does. -/
def findPathElem : Str → Option (Str × Str)
  | [] => none
  | c :: rest =>
    match tryPathAt (c :: rest) with
    | some v => some v
    | none => findPathElem rest

/-- Result of the `while ((match = pathRegex.exec(this.buffer)))` loop:
emissions, the possibly updated style, the remaining buffer, and the
divergence flag.  When a `parsePath` call diverges, `this.buffer` is never
re-sliced (the assignment after the loop is unreachable), hence `buf` is
the whole input in that case. -/
structure ExtractRes where
  segs : List Segment
  warns : List Warn
  diverged : Bool
  style : Style
  buf : Str
deriving Repr, DecidableEq

/-- The `exec` loop, with fuel (every found match consumes at least eight
characters, so fuel `s.length + 1` never runs out; see `extractLoopF_congr`
below). -/
def extractLoopF : Nat → Str → Style → ExtractRes
  | 0, s, style => ⟨[], [], false, style, s⟩
  | fuel + 1, s, style =>
    match findPathElem s with
    | none => ⟨[], [], false, style, s⟩
    | some (attrs, rest) =>
      let p := parsePath attrs style
      if p.diverged then ⟨p.segs, p.warns, true, p.style, s⟩
      else
        let r := extractLoopF fuel rest p.style
        if r.diverged then ⟨p.segs ++ r.segs, p.warns ++ r.warns, true, r.style, s⟩
        else ⟨p.segs ++ r.segs, p.warns ++ r.warns, false, r.style, r.buf⟩

/-- The `exec` loop with its canonical (always sufficient) fuel. -/
def extractLoop (s : Str) (style : Style) : ExtractRes := extractLoopF (s.length + 1) s style

/-- `PathParser.extractPaths`: run the `exec` loop, keep the unconsumed
tail as the new buffer, and emit a `buffer_overflow` warning when the
remaining buffer exceeds 50000 characters (unreachable when the loop hung
inside `parsePath`). -/
def extractPaths (s : Str) (style : Style) : ExtractRes :=
  let r := extractLoop s style
  if r.diverged then r
  else if r.buf.length > 50000 then
    { r with warns := r.warns ++ [Warn.bufferOverflow r.buf.length] }
  else r

/-- `PathParser` state: the text buffer, `currentStyle`, and the
`svgStarted` flag; `diverged` additionally records that some earlier
`feed` call hung (in which case no later call can ever run). -/
structure ParserState where
  buffer : Str
  style : Style
  svgStarted : Bool
  diverged : Bool
deriving Repr, DecidableEq

/-- The constructor / `reset()` state: empty buffer, default style
`{stroke: '#000', strokeWidth: 3}`, stream not started. -/
def initParser : ParserState := ⟨[], ⟨"#000".toList, 3⟩, false, false⟩

/-- Observable outcome of one `feed` call: the successor state and the
segments/warnings handed to the injected callbacks, in order. -/
structure FeedRes where
  state : ParserState
  segs : List Segment
  warns : List Warn
deriving Repr, DecidableEq

/-- The literal of `this.buffer.indexOf('<svg')` (case-sensitive). -/
def svgPat : Str := "<svg".toList

/-- Case-sensitive literal test at the head of the input. -/
def startsLit : Str → Str → Bool
  | [], _ => true
  | _ :: _, [] => false
  | p :: ps, c :: cs => p = c ∧ startsLit ps cs

/-- `indexOf('<svg')` followed by `slice(svgStart)`: the suffix of the
input from the first occurrence of `<svg`, if any. -/
def svgSuffix : Str → Option Str
  | [] => none
  | c :: rest => if startsLit svgPat (c :: rest) then some (c :: rest) else svgSuffix rest

/-- `if (this.buffer.length > 100) this.buffer = this.buffer.slice(-100)`. -/
def keepTail (s : Str) : Str := if s.length > 100 then s.drop (s.length - 100) else s

/-- `PathParser.feed(chunk)`: append the chunk; before the `<svg` marker is
seen, search for it and otherwise retain only the last 100 characters;
once (and after) the marker is found, extract complete path elements. -/
def feed (st : ParserState) (chunk : Str) : FeedRes :=
  if st.diverged then ⟨st, [], []⟩
  else
    let buf := st.buffer ++ chunk
    if st.svgStarted = false then
      match svgSuffix buf with
      | none => ⟨{ st with buffer := keepTail buf }, [], []⟩
      | some tail =>
        let r := extractPaths tail st.style
        ⟨⟨r.buf, r.style, true, r.diverged⟩, r.segs, r.warns⟩
    else
      let r := extractPaths buf st.style
      ⟨⟨r.buf, r.style, true, r.diverged⟩, r.segs, r.warns⟩

/-- Feeding a list of fragments in order; a hung `feed` call never
returns, so no fragment after it is ever processed. -/
def feedMany (st : ParserState) : List Str → FeedRes
  | [] => ⟨st, [], []⟩
  | c :: cs =>
    let r1 := feed st c
    if r1.state.diverged then r1
    else
      let r2 := feedMany r1.state cs
      ⟨r2.state, r1.segs ++ r2.segs, r1.warns ++ r2.warns⟩

/-! ### The canvas context model

The renderer's only interactions with the 2d context are
`strokeStyle`/`lineWidth` assignment, `beginPath`, `moveTo`, `lineTo`,
`quadraticCurveTo`, `bezierCurveTo` and `stroke`.  The model keeps the
current path as the list of issued path commands and records every
`stroke()` call as an `InkStroke` (style registers plus the stroked path);
the drawing surface is compared through the point-set semantics `inkPts`
below, which is exactly "which styled points got ink". -/

/-- One issued path command of the current context path. -/
inductive PathCmd where
  | moveTo (x y : ℚ)
  | lineTo (x y : ℚ)
  | quadTo (x1 y1 x y : ℚ)
  | cubicTo (x1 y1 x2 y2 x y : ℚ)
deriving Repr, DecidableEq

/-- One `stroke()` call: the style registers at that moment and the path
that was stroked. -/
structure InkStroke where
  color : Str
  width : ℚ
  path : List PathCmd
deriving Repr, DecidableEq

/-- The 2d context state used by the renderer. -/
structure Ctx where
  strokeStyle : Str
  lineWidth : ℚ
  path : List PathCmd
  ink : List InkStroke
deriving Repr, DecidableEq

/-- `ctx.stroke()`. -/
def ctxStroke (c : Ctx) : Ctx :=
  { c with ink := c.ink ++ [⟨c.strokeStyle, c.lineWidth, c.path⟩] }

/-- `ctx.beginPath()`. -/
def ctxBeginPath (c : Ctx) : Ctx := { c with path := [] }

/-- `ctx.moveTo` / `ctx.lineTo` / `ctx.quadraticCurveTo` / `ctx.bezierCurveTo`. -/
def ctxAdd (c : Ctx) (cmd : PathCmd) : Ctx := { c with path := c.path ++ [cmd] }

/-! ### Renderer state (`CanvasDrawer`) -/

/-- `CanvasDrawer` state (the `animationId` handle of the host scheduler is
not modelled: stepping is explicit). -/
structure RState where
  ctx : Ctx
  queue : List Segment
  isDrawing : Bool
  currentSegment : Option Segment
  segmentProgress : ℚ
  segmentStartX : ℚ
  segmentStartY : ℚ
  segmentLength : ℚ
  penX : ℚ
  penY : ℚ
  pathStarted : Bool
deriving Repr, DecidableEq

/-- `this.pixelsPerFrame = 8`. -/
def pixelsPerFrame : ℚ := 8

/-- `this.minFramesPerSegment = 3`. -/
def minFramesPerSegment : ℚ := 3

/-- Computable model of `Math.sqrt` on rationals (monotone enough for the
claims: every theorem below uses only that `sqrtQ q = 0` for `q ≤ 0` and
`sqrtQ q > 0` for `q > 0`, which agrees with `Math.sqrt` on the
sums of squares the renderer feeds it). -/
def sqrtQ (q : ℚ) : ℚ :=
  if q ≤ 0 then 0 else (Nat.sqrt (q.num.toNat * q.den) : ℚ) / (q.den : ℚ)

/-- `CanvasDrawer.lineLength`. -/
def lineLength (x1 y1 x2 y2 : ℚ) : ℚ :=
  sqrtQ ((x2 - x1) * (x2 - x1) + (y2 - y1) * (y2 - y1))

/-- `CanvasDrawer.interpolatePoint(type, startX, startY, segment, t)`:
the parametric point of the current segment (the `default` branch of the
source returns the endpoint). -/
def interpolatePoint (s : Seg) (sx sy t : ℚ) : ℚ × ℚ :=
  match s with
  | .lineTo x y => (sx + (x - sx) * t, sy + (y - sy) * t)
  | .closePath x y => (sx + (x - sx) * t, sy + (y - sy) * t)
  | .quadTo x1 y1 x y =>
    ((1 - t) * (1 - t) * sx + 2 * (1 - t) * t * x1 + t * t * x,
     (1 - t) * (1 - t) * sy + 2 * (1 - t) * t * y1 + t * t * y)
  | .cubicTo x1 y1 x2 y2 x y =>
    ((1 - t) ^ 3 * sx + 3 * (1 - t) ^ 2 * t * x1 + 3 * (1 - t) * t ^ 2 * x2 + t ^ 3 * x,
     (1 - t) ^ 3 * sy + 3 * (1 - t) ^ 2 * t * y1 + 3 * (1 - t) * t ^ 2 * y2 + t ^ 3 * y)
  | .moveTo x y => (x, y)

/-- Sum of chord lengths along consecutive sample points. -/
def chordSum : ℚ × ℚ → List (ℚ × ℚ) → ℚ
  | _, [] => 0
  | p, q :: rest => lineLength p.1 p.2 q.1 q.2 + chordSum q rest

/-- `CanvasDrawer.bezierLength`: sample the curve at `t = 1/10 … 10/10`
and sum consecutive chord lengths from the start point. -/
def bezierLength (sx sy : ℚ) (s : Seg) : ℚ :=
  chordSum (sx, sy) ((List.range 10).map fun k => interpolatePoint s sx sy ((k + 1 : ℚ) / 10))

/-- Endpoint `(segment.x, segment.y)` of a segment. -/
def Seg.endPt : Seg → ℚ × ℚ
  | .moveTo x y => (x, y)
  | .lineTo x y => (x, y)
  | .quadTo _ _ x y => (x, y)
  | .cubicTo _ _ _ _ x y => (x, y)
  | .closePath x y => (x, y)

/-- `segment.style?.stroke || '#000'` (the falsy string is the empty one). -/
def styleStroke (st : Style) : Str := if st.stroke = [] then "#000".toList else st.stroke

/-- `segment.style?.strokeWidth || 3` (the falsy number of the model is `0`). -/
def styleWidth (st : Style) : ℚ := if st.strokeWidth = 0 then 3 else st.strokeWidth

/-- `CanvasDrawer.beginSegmentAnimation(segment)`. -/
def beginSegmentAnimation (st : RState) (s : Segment) : RState :=
  let len :=
    match s.seg with
    | .lineTo x y => lineLength st.penX st.penY x y
    | .closePath x y => lineLength st.penX st.penY x y
    | .quadTo _ _ _ _ => bezierLength st.penX st.penY s.seg
    | .cubicTo _ _ _ _ _ _ => bezierLength st.penX st.penY s.seg
    | .moveTo _ _ => 0
  { st with
    currentSegment := some s
    segmentProgress := 0
    segmentStartX := st.penX
    segmentStartY := st.penY
    segmentLength := len
    ctx := { st.ctx with strokeStyle := styleStroke s.style, lineWidth := styleWidth s.style } }

/-- `CanvasDrawer.drawPartialQuadratic`: de Casteljau subdivision at `t`,
then `quadraticCurveTo` of the leading portion. -/
def drawPartialQuadratic (sx sy x1 y1 x y t : ℚ) (c : Ctx) : Ctx :=
  let nx1 := sx + (x1 - sx) * t
  let ny1 := sy + (y1 - sy) * t
  let nx2 := x1 + (x - x1) * t
  let ny2 := y1 + (y - y1) * t
  let endX := nx1 + (nx2 - nx1) * t
  let endY := ny1 + (ny2 - ny1) * t
  ctxAdd c (.quadTo nx1 ny1 endX endY)

/-- `CanvasDrawer.drawPartialCubic`: three de Casteljau levels at `t`,
then `bezierCurveTo` of the leading portion. -/
def drawPartialCubic (sx sy x1 y1 x2 y2 x y t : ℚ) (c : Ctx) : Ctx :=
  let ax := sx + (x1 - sx) * t
  let ay := sy + (y1 - sy) * t
  let bx := x1 + (x2 - x1) * t
  let byv := y1 + (y2 - y1) * t
  let cx := x2 + (x - x2) * t
  let cyv := y2 + (y - y2) * t
  let dx := ax + (bx - ax) * t
  let dy := ay + (byv - ay) * t
  let ex := bx + (cx - bx) * t
  let ey := byv + (cyv - byv) * t
  let endX := dx + (ex - dx) * t
  let endY := dy + (ey - dy) * t
  ctxAdd c (.cubicTo ax ay dx dy endX endY)

/-- `CanvasDrawer.advanceSegmentAnimation()`: one frame of the current
segment; `MoveTo` resolves instantly, drawable segments advance progress
by `pixelsPerFrame / length` (or the fixed minimum fraction on degenerate
length), redraw the partial piece from the anchor, and on completion snap
the pen to the true endpoint. -/
def advanceSegmentAnimation (st : RState) : RState :=
  match st.currentSegment with
  | none => st
  | some s =>
    match s.seg with
    | .moveTo mx my =>
      let c1 := if st.pathStarted then ctxStroke st.ctx else st.ctx
      { st with
        ctx := ctxAdd (ctxBeginPath c1) (.moveTo mx my)
        penX := mx
        penY := my
        pathStarted := true
        currentSegment := none }
    | sg =>
      let inc :=
        if 0 < st.segmentLength then pixelsPerFrame / st.segmentLength
        else 1 / minFramesPerSegment
      let prog := min 1 (st.segmentProgress + inc)
      let pt := interpolatePoint sg st.segmentStartX st.segmentStartY prog
      let c1 :=
        if st.pathStarted = false then
          ctxAdd (ctxBeginPath st.ctx) (.moveTo st.segmentStartX st.segmentStartY)
        else st.ctx
      let c2 := ctxAdd (ctxBeginPath c1) (.moveTo st.segmentStartX st.segmentStartY)
      let c3 :=
        match sg with
        | .lineTo _ _ => ctxAdd c2 (.lineTo pt.1 pt.2)
        | .closePath _ _ => ctxAdd c2 (.lineTo pt.1 pt.2)
        | .quadTo x1 y1 x y => drawPartialQuadratic st.segmentStartX st.segmentStartY x1 y1 x y prog c2
        | .cubicTo x1 y1 x2 y2 x y =>
          drawPartialCubic st.segmentStartX st.segmentStartY x1 y1 x2 y2 x y prog c2
        | .moveTo _ _ => c2
      let c4 := ctxStroke c3
      if 1 ≤ prog then
        { st with
          ctx := ctxAdd (ctxBeginPath c4) (.moveTo sg.endPt.1 sg.endPt.2)
          segmentProgress := prog
          penX := sg.endPt.1
          penY := sg.endPt.2
          pathStarted := (match sg with | .closePath _ _ => false | _ => true)
          currentSegment := none }
      else
        { st with
          ctx := c4
          segmentProgress := prog
          penX := pt.1
          penY := pt.2
          pathStarted := true }

/-- `CanvasDrawer.hasPending()`. -/
def hasPending (st : RState) : Bool :=
  st.queue ≠ [] || st.isDrawing || st.currentSegment.isSome

/-- One call of `CanvasDrawer.draw()` (one animation frame), instrumented
with the completion events of the frame: the endpoint to which the pen is
snapped when a segment completes during this frame (this list is the
specification-side observation of "visiting an endpoint"; `draw` below is
the uninstrumented projection). -/
def drawE (st : RState) : RState × List (ℚ × ℚ) :=
  if st.isDrawing = false then (st, [])
  else
    let st1 :=
      match st.currentSegment, st.queue with
      | none, s :: rest => beginSegmentAnimation { st with queue := rest } s
      | _, _ => st
    match st1.currentSegment with
    | some s =>
      let st2 := advanceSegmentAnimation st1
      let st3 :=
        if st2.currentSegment.isSome || st2.queue ≠ [] then st2
        else { st2 with isDrawing := false }
      (st3, if st2.currentSegment = none then [s.seg.endPt] else [])
    | none => ({ st with isDrawing := false }, [])

/-- `CanvasDrawer.draw()`: the state effect of one animation frame. -/
def draw (st : RState) : RState := (drawE st).1

/-- `n` animation frames, collecting the completion events in order. -/
def runE : Nat → RState → RState × List (ℚ × ℚ)
  | 0, st => (st, [])
  | n + 1, st =>
    let r1 := drawE st
    let r2 := runE n r1.1
    (r2.1, r1.2 ++ r2.2)

/-- `CanvasDrawer.drawSegmentInstant(segment)`: the non-animated draw used
by `flush` to drain the queue. -/
def drawSegmentInstant (st : RState) (s : Segment) : RState :=
  let c0 := { st.ctx with strokeStyle := styleStroke s.style, lineWidth := styleWidth s.style }
  match s.seg with
  | .moveTo x y =>
    let c1 := if st.pathStarted then ctxStroke c0 else c0
    { st with
      ctx := ctxAdd (ctxBeginPath c1) (.moveTo x y)
      penX := x
      penY := y
      pathStarted := true }
  | .lineTo x y =>
    let c1 :=
      if st.pathStarted = false then ctxAdd (ctxBeginPath c0) (.moveTo st.penX st.penY) else c0
    let c2 := ctxStroke (ctxAdd c1 (.lineTo x y))
    { st with
      ctx := ctxAdd (ctxBeginPath c2) (.moveTo x y)
      penX := x
      penY := y
      pathStarted := true }
  | .cubicTo x1 y1 x2 y2 x y =>
    let c1 :=
      if st.pathStarted = false then ctxAdd (ctxBeginPath c0) (.moveTo st.penX st.penY) else c0
    let c2 := ctxStroke (ctxAdd c1 (.cubicTo x1 y1 x2 y2 x y))
    { st with
      ctx := ctxAdd (ctxBeginPath c2) (.moveTo x y)
      penX := x
      penY := y
      pathStarted := true }
  | .quadTo x1 y1 x y =>
    let c1 :=
      if st.pathStarted = false then ctxAdd (ctxBeginPath c0) (.moveTo st.penX st.penY) else c0
    let c2 := ctxStroke (ctxAdd c1 (.quadTo x1 y1 x y))
    { st with
      ctx := ctxAdd (ctxBeginPath c2) (.moveTo x y)
      penX := x
      penY := y
      pathStarted := true }
  | .closePath x y =>
    if st.pathStarted then
      let c1 := ctxStroke (ctxAdd c0 (.lineTo x y))
      { st with ctx := c1, penX := x, penY := y, pathStarted := false }
    else { st with ctx := c0 }

/-- `CanvasDrawer.stopDrawing()` (the scheduler handle is not modelled). -/
def stopDrawing (st : RState) : RState := { st with isDrawing := false }

/-- The `while (this.queue.length > 0)` drain of `flush`: shift the next
segment and draw it instantly (`drawSegmentInstant` never touches the
queue, so threading the shifted list is the loop's exact behaviour). -/
def drainList (st : RState) : List Segment → RState
  | [] => st
  | s :: rest => drainList (drawSegmentInstant { st with queue := rest } s) rest

/-- `CanvasDrawer.flush()`: force the current segment to completion via
the animated path at progress 1, then drain the queue instantly and stop. -/
def flush (st : RState) : RState :=
  let st1 :=
    match st.currentSegment with
    | some _ =>
      { advanceSegmentAnimation { st with segmentProgress := 1 } with currentSegment := none }
    | none => st
  stopDrawing (drainList st1 st1.queue)

/-- A freshly constructed / cleared renderer over a blank surface. -/
def freshR : RState :=
  ⟨⟨"#000".toList, 3, [], []⟩, [], false, none, 0, 0, 0, 0, 0, 0, false⟩

/-- A renderer whose queue holds the given segments with the animation
loop started (the state from which the per-frame stepping proceeds). -/
def startedWith (segs : List Segment) : RState :=
  { freshR with queue := segs, isDrawing := true }

/-! ### Point-set semantics of the drawing surface

`flush` redraws each segment in one stroke while the animation redraws a
growing partial piece each frame, so the two call traces differ; what the
spec compares is the final artwork.  A stroked path is interpreted as the
set of styled points it covers (parameter range `[0,1]` over `ℚ`), and
the surface as the union over all recorded strokes. -/

/-- Linear interpolation `a + (b - a)t`. -/
def lerp (a b t : ℚ) : ℚ := a + (b - a) * t

/-- Quadratic Bernstein form. -/
def quadPt (a b c t : ℚ) : ℚ := (1 - t) * (1 - t) * a + 2 * (1 - t) * t * b + t * t * c

/-- Cubic Bernstein form. -/
def cubicPt (a b c d t : ℚ) : ℚ :=
  (1 - t) ^ 3 * a + 3 * (1 - t) ^ 2 * t * b + 3 * (1 - t) * t ^ 2 * c + t ^ 3 * d

/-- Rational unit interval membership. -/
def unitI (t : ℚ) : Prop := 0 ≤ t ∧ t ≤ 1

/-- Endpoint of a path command (the context's current point after it). -/
def PathCmd.endPt : PathCmd → ℚ × ℚ
  | .moveTo x y => (x, y)
  | .lineTo x y => (x, y)
  | .quadTo _ _ x y => (x, y)
  | .cubicTo _ _ _ _ x y => (x, y)

/-- Points covered by one path command starting at current point `p`
(a bare `moveTo` strokes nothing). -/
def cmdPts (p : ℚ × ℚ) : PathCmd → Set (ℚ × ℚ)
  | .moveTo _ _ => ∅
  | .lineTo x y => { q | ∃ t, unitI t ∧ q = (lerp p.1 x t, lerp p.2 y t) }
  | .quadTo x1 y1 x y => { q | ∃ t, unitI t ∧ q = (quadPt p.1 x1 x t, quadPt p.2 y1 y t) }
  | .cubicTo x1 y1 x2 y2 x y =>
    { q | ∃ t, unitI t ∧ q = (cubicPt p.1 x1 x2 x t, cubicPt p.2 y1 y2 y t) }

/-- Points covered by a context path (every path the renderer strokes
begins with a `moveTo`, so the seed current point is never material). -/
def pathPts : ℚ × ℚ → List PathCmd → Set (ℚ × ℚ)
  | _, [] => ∅
  | p, c :: rest => cmdPts p c ∪ pathPts c.endPt rest

/-- A point of the surface together with the stroke style and width that
inked it. -/
abbrev StyledPt := Str × ℚ × ℚ × ℚ

/-- Styled points of one recorded stroke. -/
def strokePts (s : InkStroke) : Set StyledPt :=
  { x | ∃ q, q ∈ pathPts (0, 0) s.path ∧ x = (s.color, s.width, q.1, q.2) }

/-- Styled points of the whole surface. -/
def inkPts : List InkStroke → Set StyledPt
  | [] => ∅
  | s :: rest => strokePts s ∪ inkPts rest

/-- Reference geometry of one whole segment drawn from anchor `p`. -/
def segFullPts (p : ℚ × ℚ) : Seg → Set (ℚ × ℚ)
  | .moveTo _ _ => ∅
  | .lineTo x y => cmdPts p (.lineTo x y)
  | .closePath x y => cmdPts p (.lineTo x y)
  | .quadTo x1 y1 x y => cmdPts p (.quadTo x1 y1 x y)
  | .cubicTo x1 y1 x2 y2 x y => cmdPts p (.cubicTo x1 y1 x2 y2 x y)

/-- Reference styled geometry of one whole segment. -/
def segStyledPts (p : ℚ × ℚ) (s : Segment) : Set StyledPt :=
  { x | ∃ q, q ∈ segFullPts p s.seg ∧ x = (styleStroke s.style, styleWidth s.style, q.1, q.2) }

/-- Reference styled geometry of a segment list chained from anchor `p`. -/
def segsPts : ℚ × ℚ → List Segment → Set StyledPt
  | _, [] => ∅
  | p, s :: rest => segStyledPts p s ∪ segsPts s.seg.endPt rest

/-- The stroke-open flag left behind by a completed segment. -/
def flagAfterSeg : Seg → Bool
  | .closePath _ _ => false
  | _ => true

/-- The stroke-open flag after a whole segment list. -/
def foldFlag : Bool → List Segment → Bool
  | b, [] => b
  | _, s :: rest => foldFlag (flagAfterSeg s.seg) rest

/-- The pen position after a whole segment list from start `p`. -/
def lastEnd : ℚ × ℚ → List Segment → ℚ × ℚ
  | p, [] => p
  | _, s :: rest => lastEnd s.seg.endPt rest

/-- Well-formedness of pending segments relative to the stroke-open flag:
every `ClosePath` finds an open sub-path when it is processed.  (The
counterexample to the unrestricted flush-equivalence claim is exactly a
`ClosePath` arriving with the flag down.) -/
def wfFrom : Bool → List Segment → Bool
  | _, [] => true
  | b, s :: rest =>
    match s.seg with
    | .closePath _ _ => b && wfFrom false rest
    | .moveTo _ _ => wfFrom true rest
    | _ => wfFrom true rest

/-- Whether a segment is a pen move (the instantly-resolving kind). -/
def Seg.isMove : Seg → Bool
  | .moveTo _ _ => true
  | _ => false

/-- The per-frame progress increment of `advanceSegmentAnimation`. -/
def incOf (st : RState) : ℚ :=
  if 0 < st.segmentLength then pixelsPerFrame / st.segmentLength
  else 1 / minFramesPerSegment

/-- The partial-piece path command a drawable segment contributes at
progress `prog` from anchor `(ax, ay)` (the command `c3` adds). -/
def partialCmd (sg : Seg) (ax ay prog : ℚ) : PathCmd :=
  match sg with
  | .lineTo x y =>
    .lineTo (ax + (x - ax) * prog) (ay + (y - ay) * prog)
  | .closePath x y =>
    .lineTo (ax + (x - ax) * prog) (ay + (y - ay) * prog)
  | .quadTo x1 y1 x y =>
    .quadTo (ax + (x1 - ax) * prog) (ay + (y1 - ay) * prog)
      ((ax + (x1 - ax) * prog) + ((x1 + (x - x1) * prog) - (ax + (x1 - ax) * prog)) * prog)
      ((ay + (y1 - ay) * prog) + ((y1 + (y - y1) * prog) - (ay + (y1 - ay) * prog)) * prog)
  | .cubicTo x1 y1 x2 y2 x y =>
    .cubicTo (ax + (x1 - ax) * prog) (ay + (y1 - ay) * prog)
      ((ax + (x1 - ax) * prog) + ((x1 + (x2 - x1) * prog) - (ax + (x1 - ax) * prog)) * prog)
      ((ay + (y1 - ay) * prog) + ((y1 + (y2 - y1) * prog) - (ay + (y1 - ay) * prog)) * prog)
      (((ax + (x1 - ax) * prog) + ((x1 + (x2 - x1) * prog) - (ax + (x1 - ax) * prog)) * prog) +
        (((x1 + (x2 - x1) * prog) + ((x2 + (x - x2) * prog) - (x1 + (x2 - x1) * prog)) * prog) -
          ((ax + (x1 - ax) * prog) + ((x1 + (x2 - x1) * prog) - (ax + (x1 - ax) * prog)) * prog)) *
          prog)
      (((ay + (y1 - ay) * prog) + ((y1 + (y2 - y1) * prog) - (ay + (y1 - ay) * prog)) * prog) +
        (((y1 + (y2 - y1) * prog) + ((y2 + (y - y2) * prog) - (y1 + (y2 - y1) * prog)) * prog) -
          ((ay + (y1 - ay) * prog) + ((y1 + (y2 - y1) * prog) - (ay + (y1 - ay) * prog)) * prog)) *
          prog)
  | .moveTo x y => .moveTo x y

/-- Boundary form of the animation-loop reachability invariant: every
segment of `done` is fully inked, the pen sits at the chained endpoint,
and the current context path is the single `moveTo` the completion left. -/
def RInvA (segs done : List Segment) (st : RState) : Prop :=
  segs = done ++ st.queue ∧
  wfFrom (foldFlag false done) st.queue = true ∧
  st.currentSegment = none ∧
  st.penX = (lastEnd (0, 0) done).1 ∧
  st.penY = (lastEnd (0, 0) done).2 ∧
  st.pathStarted = foldFlag false done ∧
  (st.pathStarted = true → st.ctx.path = [PathCmd.moveTo st.penX st.penY]) ∧
  inkPts st.ctx.ink = segsPts (0, 0) done ∧
  (st.isDrawing = false → st.queue = [])

/-- Mid-segment form of the reachability invariant: a drawable segment is
current, its anchor is the chained endpoint of `done`, the style registers
hold its style, and the surface holds the `done` ink plus some partial
pieces of the current segment. -/
def RInvB (segs done : List Segment) (s : Segment) (st : RState) : Prop :=
  segs = done ++ s :: st.queue ∧
  wfFrom (flagAfterSeg s.seg) st.queue = true ∧
  st.currentSegment = some s ∧
  s.seg.isMove = false ∧
  st.isDrawing = true ∧
  0 ≤ st.segmentProgress ∧
  st.segmentStartX = (lastEnd (0, 0) done).1 ∧
  st.segmentStartY = (lastEnd (0, 0) done).2 ∧
  st.ctx.strokeStyle = styleStroke s.style ∧
  st.ctx.lineWidth = styleWidth s.style ∧
  segsPts (0, 0) done ⊆ inkPts st.ctx.ink ∧
  inkPts st.ctx.ink ⊆ segsPts (0, 0) done ∪
    segStyledPts (st.segmentStartX, st.segmentStartY) s

/-- A state of the animation loop is at a boundary or mid-segment. -/
def RInv (segs : List Segment) (st : RState) : Prop :=
  (∃ done, RInvA segs done st) ∨ (∃ done s, RInvB segs done s st)

/-- The observable outcome the flush-equivalence claim compares: the
styled point set of the surface, the pen position, the stroke-open flag,
and that nothing is pending. -/
def FlushSpec (segs : List Segment) (st : RState) : Prop :=
  inkPts st.ctx.ink = segsPts (0, 0) segs ∧
  st.penX = (lastEnd (0, 0) segs).1 ∧
  st.penY = (lastEnd (0, 0) segs).2 ∧
  st.pathStarted = foldFlag false segs ∧
  hasPending st = false

/-! ## Theorems -/

/-! ### Scanner lemmas for fragmentation invariance (C1)

The regex scanners are deterministic functions of the buffer; the facts
below say that a complete match found in a buffer is exactly the match
found in any extension of that buffer (so feeding more text later cannot
change or reorder the elements already recognised), and that a buffer
without a complete element stays matchless in the part extension cannot
reach. -/

theorem stripCI_append {p s r : Str} (t : Str) (h : stripCI p s = some r) :
    stripCI p (s ++ t) = some (r ++ t) := by
  induction p generalizing s with
  | nil =>
    simp only [stripCI, Option.some.injEq] at h
    simp [stripCI, h]
  | cons a p ih =>
    cases s with
    | nil => simp [stripCI] at h
    | cons c cs =>
      simp only [stripCI] at h
      simp only [List.cons_append, stripCI]
      by_cases hac : a.toLower = c.toLower
      · rw [if_pos hac] at h
        rw [if_pos hac]
        exact ih h
      · rw [if_neg hac] at h
        exact absurd h (by simp)

theorem stripCI_none_append {p s : Str} (t : Str) (h : stripCI p s = none)
    (hl : p.length ≤ s.length) : stripCI p (s ++ t) = none := by
  induction p generalizing s with
  | nil => simp [stripCI] at h
  | cons a p ih =>
    cases s with
    | nil => simp at hl
    | cons c cs =>
      simp only [stripCI] at h
      simp only [List.cons_append, stripCI]
      by_cases hac : a.toLower = c.toLower
      · rw [if_pos hac] at h
        rw [if_pos hac]
        exact ih h (by simpa using hl)
      · rw [if_neg hac]

theorem stripCI_decomp {p s r : Str} (h : stripCI p s = some r) :
    ∃ q, s = q ++ r ∧ q.length = p.length ∧ ∀ c ∈ q, ∃ d ∈ p, d.toLower = c.toLower := by
  induction p generalizing s with
  | nil =>
    simp only [stripCI, Option.some.injEq] at h
    exact ⟨[], by simp [h]⟩
  | cons a p ih =>
    cases s with
    | nil => simp [stripCI] at h
    | cons c cs =>
      simp only [stripCI] at h
      by_cases hac : a.toLower = c.toLower
      · rw [if_pos hac] at h
        obtain ⟨q, hq1, hq2, hq3⟩ := ih h
        refine ⟨c :: q, by simp [hq1], by simp [hq2], ?_⟩
        intro x hx
        rcases List.mem_cons.mp hx with hx | hx
        · exact ⟨a, by simp, by rw [hac, hx]⟩
        · obtain ⟨d, hd1, hd2⟩ := hq3 x hx
          exact ⟨d, by simp [hd1], hd2⟩
      · rw [if_neg hac] at h
        exact absurd h (by simp)

theorem wsSpan_eq_append (s : Str) : (wsSpan s).1 ++ (wsSpan s).2 = s := by
  induction s with
  | nil => simp [wsSpan]
  | cons c t ih =>
    simp only [wsSpan]
    split
    · simpa using ih
    · simp

theorem wsSpan_mem_ws {s : Str} : ∀ c ∈ (wsSpan s).1, isWsChar c = true := by
  induction s with
  | nil => simp [wsSpan]
  | cons c t ih =>
    simp only [wsSpan]
    split
    · intro x hx
      rcases List.mem_cons.mp hx with hx | hx
      · subst hx; assumption
      · exact ih x hx
    · simp

theorem wsSpan_append_of_stop {s : Str} (t : Str) (h : (wsSpan s).2 ≠ []) :
    wsSpan (s ++ t) = ((wsSpan s).1, (wsSpan s).2 ++ t) := by
  induction s with
  | nil => simp [wsSpan] at h
  | cons c cs ih =>
    by_cases hc : isWsChar c
    · have h' : (wsSpan cs).2 ≠ [] := by simpa [wsSpan, hc] using h
      simp [wsSpan, hc, ih h']
    · simp [wsSpan, hc]

theorem findClose_decomp : ∀ {s : Str} {r : Str × Str}, findClose s = some r →
    s = r.1 ++ '/' :: '>' :: r.2
  | [], r, h => by simp [findClose] at h
  | [c], r, h => by simp [findClose] at h
  | c :: d :: rest, r, h => by
    rw [findClose] at h
    split at h
    · next hcd =>
      obtain ⟨rfl, rfl⟩ := hcd
      simp at h
      simp [← h]
    · simp only [Option.map_eq_some'] at h
      obtain ⟨r', hr', rfl⟩ := h
      have := findClose_decomp hr'
      simp [this]

theorem findClose_append : ∀ {s : Str} {r : Str × Str} (t : Str), findClose s = some r →
    findClose (s ++ t) = some (r.1, r.2 ++ t)
  | [], r, t, h => by simp [findClose] at h
  | [c], r, t, h => by simp [findClose] at h
  | c :: d :: rest, r, t, h => by
    rw [findClose] at h
    rw [List.cons_append, List.cons_append, findClose]
    split at h
    · next hcd =>
      simp only [hcd, and_self, if_true]
      simp at h
      simp [← h]
    · next hcd =>
      rw [if_neg hcd]
      simp only [Option.map_eq_some'] at h
      obtain ⟨r', hr', rfl⟩ := h
      have := findClose_append t hr'
      rw [← List.cons_append, this]
      simp

theorem findClose_pos : ∀ (u w : Str), (findClose (u ++ '/' :: '>' :: w)).isSome = true := by
  intro u
  induction u with
  | nil => intro w; simp [findClose]
  | cons a u ih =>
    intro w
    cases u with
    | nil =>
      simp only [List.nil_append, List.cons_append, findClose]
      split
      · simp
      · simp [findClose]
    | cons b u' =>
      simp only [List.cons_append, findClose]
      split
      · simp
      · have := ih w
        simp only [List.cons_append] at this
        simpa using this

theorem pathPat_len : pathPat.length = 5 := rfl

theorem pathPat_no_slash : ∀ d ∈ pathPat, d.toLower ≠ '/' := by decide

theorem split_after_clean : ∀ (pre rest u w : Str), pre ++ rest = u ++ '/' :: '>' :: w →
    (∀ c ∈ pre, c ≠ '/') → ∃ v, rest = v ++ '/' :: '>' :: w := by
  intro pre
  induction pre with
  | nil =>
    intro rest u w h _
    exact ⟨u, by simpa using h⟩
  | cons a pre ih =>
    intro rest u w h hc
    cases u with
    | nil =>
      simp only [List.cons_append, List.nil_append] at h
      have ha : a = '/' := by
        have := congrArg (fun l => List.head? l) h
        simpa using this
      exact absurd ha (hc a (by simp))
    | cons b u' =>
      simp only [List.cons_append, List.cons.injEq] at h
      exact ih rest u' w h.2 (fun c hc' => hc c (by simp [hc']))

theorem tryPathAt_append {s : Str} {r : Str × Str} (t : Str) (h : tryPathAt s = some r) :
    tryPathAt (s ++ t) = some (r.1, r.2 ++ t) := by
  simp only [tryPathAt] at h ⊢
  cases h1 : stripCI pathPat s with
  | none =>
    simp only [h1] at h
    exact Option.noConfusion h
  | some r0 =>
    simp only [h1] at h
    simp only [stripCI_append t h1]
    cases h2 : wsSpan r0 with
    | mk w r2 =>
      cases w with
      | nil =>
        simp only [h2] at h
        exact Option.noConfusion h
      | cons w0 w' =>
        simp only [h2] at h
        have hr2 : r2 ≠ [] := by
          intro hnil
          rw [hnil] at h
          simp [findClose] at h
        have h3 : wsSpan (r0 ++ t) = (w0 :: w', r2 ++ t) := by
          have hst := @wsSpan_append_of_stop r0 t (by rw [h2]; exact hr2)
          rw [h2] at hst
          simpa using hst
        simp only [h3]
        exact findClose_append t h

theorem tryPathAt_decomp {s : Str} {r : Str × Str} (h : tryPathAt s = some r) :
    ∃ u, s = u ++ '/' :: '>' :: r.2 ∧ 6 ≤ u.length := by
  simp only [tryPathAt] at h
  cases h1 : stripCI pathPat s with
  | none =>
    simp only [h1] at h
    exact Option.noConfusion h
  | some r0 =>
    simp only [h1] at h
    cases h2 : wsSpan r0 with
    | mk w r2 =>
      cases w with
      | nil =>
        simp only [h2] at h
        exact Option.noConfusion h
      | cons w0 w' =>
        simp only [h2] at h
        obtain ⟨q, hq1, hq2, _⟩ := stripCI_decomp h1
        have hq5 : q.length = 5 := by rw [hq2]; exact pathPat_len
        have hws : (w0 :: w') ++ r2 = r0 := by
          have hwe := wsSpan_eq_append r0
          rw [h2] at hwe
          exact hwe
        have hfc := findClose_decomp h
        refine ⟨q ++ ((w0 :: w') ++ r.1), ?_, ?_⟩
        · rw [hq1, ← hws, hfc]
          simp
        · simp only [List.length_append, hq5, List.length_cons]
          omega

theorem tryPathAt_none_ext {s u w : Str} (t : Str) (h : tryPathAt s = none)
    (hs : s = u ++ '/' :: '>' :: w) (hu : 6 ≤ u.length) :
    tryPathAt (s ++ t) = none := by
  have hslen : 8 ≤ s.length := by
    rw [hs]
    simp only [List.length_append, List.length_cons]
    omega
  simp only [tryPathAt] at h ⊢
  cases h1 : stripCI pathPat s with
  | none =>
    simp only [stripCI_none_append t h1 (by rw [pathPat_len]; omega)]
  | some r0 =>
    simp only [h1] at h
    simp only [stripCI_append t h1]
    obtain ⟨q, hq1, hq2, hq3⟩ := stripCI_decomp h1
    have hq5 : q.length = 5 := by rw [hq2]; exact pathPat_len
    cases r0 with
    | nil =>
      rw [hq1] at hslen
      simp [hq5] at hslen
    | cons c r0' =>
      by_cases hwc : isWsChar c = true
      · cases h2 : wsSpan (c :: r0') with
        | mk w1 r2 =>
          have hcc : (w1, r2) = (c :: (wsSpan r0').1, (wsSpan r0').2) := by
            rw [← h2]
            simp [wsSpan, hwc]
          rw [Prod.mk.injEq] at hcc
          cases w1 with
          | nil => exact absurd hcc.1 (by simp)
          | cons w0 w' =>
            simp only [h2] at h
            have hcr : (w0 :: w') ++ r2 = c :: r0' := by
              have hwe := wsSpan_eq_append (c :: r0')
              rw [h2] at hwe
              exact hwe
            have hsplit : s = (q ++ (w0 :: w')) ++ r2 := by
              rw [hq1, ← hcr, List.append_assoc]
            have hclean : ∀ x ∈ q ++ (w0 :: w'), x ≠ '/' := by
              intro x hx
              rcases List.mem_append.mp hx with hx | hx
              · obtain ⟨d, hd1, hd2⟩ := hq3 x hx
                intro hx'
                rw [hx'] at hd2
                exact absurd hd2 (by simpa using pathPat_no_slash d hd1)
              · have hxw : isWsChar x = true := by
                  apply @wsSpan_mem_ws (c :: r0')
                  rw [h2]
                  exact hx
                intro hx'
                rw [hx'] at hxw
                exact absurd hxw (by decide)
            obtain ⟨v, hv⟩ :=
              split_after_clean (q ++ (w0 :: w')) r2 u w (by rw [← hsplit, hs]) hclean
            have hpos := findClose_pos v w
            rw [← hv] at hpos
            rw [h] at hpos
            simp at hpos
      · have hnw : isWsChar c = false := by simpa using hwc
        have hsp : wsSpan ((c :: r0') ++ t) = ([], c :: (r0' ++ t)) := by
          simp [wsSpan, hnw]
        simp only [hsp]

theorem findPathElem_decomp : ∀ {s : Str} {r : Str × Str}, findPathElem s = some r →
    ∃ u, s = u ++ '/' :: '>' :: r.2 ∧ 6 ≤ u.length := by
  intro s
  induction s with
  | nil => intro r h; simp [findPathElem] at h
  | cons c cs ih =>
    intro r h
    rw [findPathElem] at h
    cases h1 : tryPathAt (c :: cs) with
    | some v =>
      rw [h1] at h
      simp at h
      subst h
      exact tryPathAt_decomp h1
    | none =>
      rw [h1] at h
      obtain ⟨u, hu1, hu2⟩ := ih h
      exact ⟨c :: u, by simp [hu1], by simp; omega⟩

theorem findPathElem_append {s : Str} {r : Str × Str} (t : Str) (h : findPathElem s = some r) :
    findPathElem (s ++ t) = some (r.1, r.2 ++ t) := by
  induction s with
  | nil => simp [findPathElem] at h
  | cons c cs ih =>
    rw [findPathElem] at h
    rw [List.cons_append, findPathElem]
    cases h1 : tryPathAt (c :: cs) with
    | some v =>
      rw [h1] at h
      simp at h
      subst h
      rw [← List.cons_append, tryPathAt_append t h1]
    | none =>
      rw [h1] at h
      obtain ⟨u, hu1, hu2⟩ := findPathElem_decomp h
      have h2 : tryPathAt ((c :: cs) ++ t) = none := by
        apply @tryPathAt_none_ext (c :: cs) (c :: u) r.2 t h1
        · rw [hu1]
          simp
        · simp only [List.length_cons]
          omega
      rw [← List.cons_append, h2]
      exact ih h

theorem findPathElem_len {s : Str} {r : Str × Str} (h : findPathElem s = some r) :
    r.2.length < s.length := by
  obtain ⟨u, hu1, hu2⟩ := findPathElem_decomp h
  rw [hu1]
  simp only [List.length_append, List.length_cons]
  omega

theorem extractLoopF_congr : ∀ (f g : ℕ) (s : Str) (sty : Style), s.length < f →
    s.length < g → extractLoopF f s sty = extractLoopF g s sty := by
  intro f
  induction f with
  | zero => intro g s sty hf hg; omega
  | succ f ih =>
    intro g s sty hf hg
    cases g with
    | zero => omega
    | succ g =>
      simp only [extractLoopF]
      cases hm : findPathElem s with
      | none => rfl
      | some v =>
        obtain ⟨attrs, rest⟩ := v
        have hlen : rest.length < s.length := by simpa using findPathElem_len hm
        simp only
        rw [ih g rest (parsePath attrs sty).style (by omega) (by omega)]

theorem extractLoopF_eq (f : ℕ) (s : Str) (sty : Style) (hf : s.length < f) :
    extractLoopF f s sty =
      match findPathElem s with
      | none => ⟨[], [], false, sty, s⟩
      | some (attrs, rest) =>
        let p := parsePath attrs sty
        if p.diverged then ⟨p.segs, p.warns, true, p.style, s⟩
        else
          let r := extractLoop rest p.style
          if r.diverged then ⟨p.segs ++ r.segs, p.warns ++ r.warns, true, r.style, s⟩
          else ⟨p.segs ++ r.segs, p.warns ++ r.warns, false, r.style, r.buf⟩ := by
  cases f with
  | zero => omega
  | succ f =>
    simp only [extractLoopF]
    cases hm : findPathElem s with
    | none => rfl
    | some v =>
      obtain ⟨attrs, rest⟩ := v
      have hlen : rest.length < s.length := by simpa using findPathElem_len hm
      simp only
      rw [extractLoopF_congr f (rest.length + 1) rest (parsePath attrs sty).style
        (by omega) (by omega)]
      unfold extractLoop
      rfl

theorem extractLoop_eq (s : Str) (sty : Style) :
    extractLoop s sty =
      match findPathElem s with
      | none => ⟨[], [], false, sty, s⟩
      | some (attrs, rest) =>
        let p := parsePath attrs sty
        if p.diverged then ⟨p.segs, p.warns, true, p.style, s⟩
        else
          let r := extractLoop rest p.style
          if r.diverged then ⟨p.segs ++ r.segs, p.warns ++ r.warns, true, r.style, s⟩
          else ⟨p.segs ++ r.segs, p.warns ++ r.warns, false, r.style, r.buf⟩ :=
  extractLoopF_eq (s.length + 1) s sty (by omega)

theorem extractLoop_div_buf {s : Str} {sty : Style}
    (h : (extractLoop s sty).diverged = true) : (extractLoop s sty).buf = s := by
  rw [extractLoop_eq] at h ⊢
  cases hm : findPathElem s with
  | none => exact absurd (by simpa [hm] using h) (by simp : ¬(false = true))
  | some v =>
    obtain ⟨attrs, rest⟩ := v
    simp only [hm] at h ⊢
    by_cases hp : (parsePath attrs sty).diverged = true
    · simp [hp]
    · simp only [hp] at h ⊢
      by_cases hr : (extractLoop rest (parsePath attrs sty).style).diverged = true
      · simp [hr]
      · simp only [hr] at h ⊢
        simp at h

theorem ExtractRes_eta2 (r : ExtractRes) (d : Bool) (b : Str) (h1 : r.diverged = d)
    (h2 : r.buf = b) : r = ⟨r.segs, r.warns, d, r.style, b⟩ := by
  rw [← h1, ← h2]

theorem extractLoop_append_aux : ∀ (n : ℕ) (s : Str), s.length ≤ n → ∀ (t : Str) (sty : Style),
    extractLoop (s ++ t) sty =
      if (extractLoop s sty).diverged then { extractLoop s sty with buf := s ++ t }
      else
        ⟨(extractLoop s sty).segs ++
            (extractLoop ((extractLoop s sty).buf ++ t) (extractLoop s sty).style).segs,
          (extractLoop s sty).warns ++
            (extractLoop ((extractLoop s sty).buf ++ t) (extractLoop s sty).style).warns,
          (extractLoop ((extractLoop s sty).buf ++ t) (extractLoop s sty).style).diverged,
          (extractLoop ((extractLoop s sty).buf ++ t) (extractLoop s sty).style).style,
          if (extractLoop ((extractLoop s sty).buf ++ t) (extractLoop s sty).style).diverged
            then s ++ t
            else (extractLoop ((extractLoop s sty).buf ++ t) (extractLoop s sty).style).buf⟩ := by
  intro n
  induction n with
  | zero =>
    intro s hn t sty
    have hs : s = [] := List.length_eq_zero.mp (by omega)
    subst hs
    have h0 : extractLoop [] sty = ⟨[], [], false, sty, []⟩ := by
      rw [extractLoop_eq]
      simp [findPathElem]
    rw [h0]
    simp only [List.nil_append]
    cases hd : (extractLoop t sty).diverged with
    | true =>
      simp only [hd, Bool.false_eq_true, if_false, if_true, List.nil_append]
      exact ExtractRes_eta2 _ _ _ hd (extractLoop_div_buf hd)
    | false =>
      simp only [hd, Bool.false_eq_true, if_false, List.nil_append]
      exact ExtractRes_eta2 _ _ _ hd rfl
  | succ n ih =>
    intro s hn t sty
    cases hm : findPathElem s with
    | none =>
      have h0 : extractLoop s sty = ⟨[], [], false, sty, s⟩ := by
        rw [extractLoop_eq]
        simp [hm]
      rw [h0]
      simp only [Bool.false_eq_true, if_false, List.nil_append]
      cases hd : (extractLoop (s ++ t) sty).diverged with
      | true =>
        simp only [hd, if_true]
        exact ExtractRes_eta2 _ _ _ hd (extractLoop_div_buf hd)
      | false =>
        simp only [hd, Bool.false_eq_true, if_false]
        exact ExtractRes_eta2 _ _ _ hd rfl
    | some v =>
      obtain ⟨attrs, rest⟩ := v
      have hlen : rest.length < s.length := by simpa using findPathElem_len hm
      rw [extractLoop_eq s sty, extractLoop_eq (s ++ t) sty, findPathElem_append t hm]
      simp only [hm]
      cases hp : (parsePath attrs sty).diverged with
      | true => simp [hp]
      | false =>
        simp only [hp, Bool.false_eq_true, if_false]
        rw [ih rest (by omega) t (parsePath attrs sty).style]
        cases hrs : (extractLoop rest (parsePath attrs sty).style).diverged with
        | true => simp [hrs]
        | false =>
          simp only [hrs, Bool.false_eq_true, if_false]
          cases hr2 : (extractLoop ((extractLoop rest (parsePath attrs sty).style).buf ++ t)
              (extractLoop rest (parsePath attrs sty).style).style).diverged with
          | true => simp [hr2, List.append_assoc]
          | false => simp [hr2, List.append_assoc]

theorem extractLoop_append (s t : Str) (sty : Style) :
    extractLoop (s ++ t) sty =
      if (extractLoop s sty).diverged then { extractLoop s sty with buf := s ++ t }
      else
        ⟨(extractLoop s sty).segs ++
            (extractLoop ((extractLoop s sty).buf ++ t) (extractLoop s sty).style).segs,
          (extractLoop s sty).warns ++
            (extractLoop ((extractLoop s sty).buf ++ t) (extractLoop s sty).style).warns,
          (extractLoop ((extractLoop s sty).buf ++ t) (extractLoop s sty).style).diverged,
          (extractLoop ((extractLoop s sty).buf ++ t) (extractLoop s sty).style).style,
          if (extractLoop ((extractLoop s sty).buf ++ t) (extractLoop s sty).style).diverged
            then s ++ t
            else (extractLoop ((extractLoop s sty).buf ++ t) (extractLoop s sty).style).buf⟩ :=
  extractLoop_append_aux s.length s le_rfl t sty

theorem extractLoop_buf_none_aux : ∀ (n : ℕ) (s : Str) (sty : Style), s.length ≤ n →
    (extractLoop s sty).diverged = false → findPathElem (extractLoop s sty).buf = none := by
  intro n
  induction n with
  | zero =>
    intro s sty hn _
    have hs : s = [] := List.length_eq_zero.mp (by omega)
    subst hs
    rw [extractLoop_eq]
    simp [findPathElem]
  | succ n ih =>
    intro s sty hn hd
    rw [extractLoop_eq] at hd ⊢
    cases hm : findPathElem s with
    | none =>
      simp only [hm]
    | some v =>
      obtain ⟨attrs, rest⟩ := v
      have hlen : rest.length < s.length := by simpa using findPathElem_len hm
      simp only [hm] at hd ⊢
      cases hp : (parsePath attrs sty).diverged with
      | true => simp [hp] at hd
      | false =>
        simp only [hp, Bool.false_eq_true, if_false] at hd ⊢
        cases hrs : (extractLoop rest (parsePath attrs sty).style).diverged with
        | true => simp [hrs] at hd
        | false =>
          simp only [hrs, Bool.false_eq_true, if_false]
          simpa using ih rest (parsePath attrs sty).style (by omega) hrs

theorem extractLoop_buf_none {s : Str} {sty : Style}
    (hd : (extractLoop s sty).diverged = false) :
    findPathElem (extractLoop s sty).buf = none :=
  extractLoop_buf_none_aux s.length s sty le_rfl hd

theorem extractPaths_segs (s : Str) (sty : Style) :
    (extractPaths s sty).segs = (extractLoop s sty).segs := by
  simp only [extractPaths]
  split
  · rfl
  · split <;> rfl

theorem extractPaths_diverged (s : Str) (sty : Style) :
    (extractPaths s sty).diverged = (extractLoop s sty).diverged := by
  simp only [extractPaths]
  split
  · rfl
  · split <;> rfl

theorem extractPaths_style (s : Str) (sty : Style) :
    (extractPaths s sty).style = (extractLoop s sty).style := by
  simp only [extractPaths]
  split
  · rfl
  · split <;> rfl

theorem extractPaths_buf (s : Str) (sty : Style) :
    (extractPaths s sty).buf = (extractLoop s sty).buf := by
  simp only [extractPaths]
  split
  · rfl
  · split <;> rfl

theorem startsLit_len {p s : Str} (h : startsLit p s = true) : p.length ≤ s.length := by
  induction p generalizing s with
  | nil => simp
  | cons a p ih =>
    cases s with
    | nil => simp [startsLit] at h
    | cons c cs =>
      simp only [startsLit] at h
      simp at h
      simpa using ih h.2

theorem startsLit_append {p s : Str} (t : Str) (h : startsLit p s = true) :
    startsLit p (s ++ t) = true := by
  induction p generalizing s with
  | nil => simp [startsLit]
  | cons a p ih =>
    cases s with
    | nil => simp [startsLit] at h
    | cons c cs =>
      simp only [startsLit] at h
      simp only [List.cons_append, startsLit]
      simp at h ⊢
      exact ⟨h.1, by simpa using ih h.2⟩

theorem startsLit_stable {p s : Str} (t : Str) (h : p.length ≤ s.length) :
    startsLit p (s ++ t) = startsLit p s := by
  induction p generalizing s with
  | nil => simp [startsLit]
  | cons a p ih =>
    cases s with
    | nil => simp at h
    | cons c cs =>
      simp only [List.cons_append, startsLit, List.append_eq]
      simp only [ih (by simpa using h)]

theorem svgSuffix_decomp {s u : Str} (h : svgSuffix s = some u) :
    ∃ a, s = a ++ u ∧ startsLit svgPat u = true := by
  induction s with
  | nil => simp [svgSuffix] at h
  | cons c cs ih =>
    rw [svgSuffix] at h
    by_cases hc : startsLit svgPat (c :: cs) = true
    · rw [if_pos hc] at h
      injection h with h
      subst h
      exact ⟨[], by simp, hc⟩
    · rw [if_neg hc] at h
      obtain ⟨a, ha1, ha2⟩ := ih h
      exact ⟨c :: a, by simp [ha1], ha2⟩

theorem svgSuffix_append {s u : Str} (t : Str) (h : svgSuffix s = some u) :
    svgSuffix (s ++ t) = some (u ++ t) := by
  induction s with
  | nil => simp [svgSuffix] at h
  | cons c cs ih =>
    rw [svgSuffix] at h
    rw [List.cons_append, svgSuffix]
    by_cases hc : startsLit svgPat (c :: cs) = true
    · rw [if_pos hc] at h
      injection h with h
      subst h
      have hc' : startsLit svgPat (c :: (cs ++ t)) = true := by
        have := startsLit_append t hc
        simpa using this
      rw [if_pos hc']
      simp
    · rw [if_neg hc] at h
      obtain ⟨a, ha1, ha2⟩ := svgSuffix_decomp h
      have hlen : svgPat.length ≤ (c :: cs).length := by
        have h4 : svgPat.length ≤ u.length := startsLit_len ha2
        simp only [List.length_cons, ha1, List.length_append]
        omega
      have hst : startsLit svgPat (c :: (cs ++ t)) = startsLit svgPat (c :: cs) := by
        have := startsLit_stable t hlen
        simpa using this
      rw [hst, if_neg hc]
      exact ih h

theorem svgSuffix_none_tail : ∀ (a : Str) {b : Str}, svgSuffix (a ++ b) = none →
    svgSuffix b = none := by
  intro a
  induction a with
  | nil => intro b h; simpa using h
  | cons c a ih =>
    intro b h
    rw [List.cons_append, svgSuffix] at h
    by_cases hc : startsLit svgPat (c :: (a ++ b)) = true
    · rw [if_pos hc] at h
      exact Option.noConfusion h
    · rw [if_neg hc] at h
      exact ih h

theorem svgSuffix_drop {b : Str} (t : Str) : ∀ (a : Str), svgSuffix (a ++ b) = none →
    3 ≤ b.length → svgSuffix ((a ++ b) ++ t) = svgSuffix (b ++ t) := by
  intro a
  induction a with
  | nil => intro h hb; simp
  | cons c a ih =>
    intro h hb
    rw [List.cons_append, svgSuffix] at h
    by_cases hc : startsLit svgPat (c :: (a ++ b)) = true
    · rw [if_pos hc] at h
      exact Option.noConfusion h
    · rw [if_neg hc] at h
      have hlen : svgPat.length ≤ (c :: (a ++ b)).length := by
        simp only [List.length_cons, List.length_append]
        have h4 : svgPat.length = 4 := rfl
        omega
      have hst : startsLit svgPat (c :: ((a ++ b) ++ t)) = startsLit svgPat (c :: (a ++ b)) := by
        have h5 := startsLit_stable t hlen
        simp only [List.cons_append] at h5
        exact h5
      have goal1 : svgSuffix (c :: ((a ++ b) ++ t)) = svgSuffix ((a ++ b) ++ t) := by
        rw [svgSuffix, hst, if_neg hc]
      calc svgSuffix ((c :: a ++ b) ++ t) = svgSuffix (c :: ((a ++ b) ++ t)) := by
            simp only [List.cons_append]
        _ = svgSuffix ((a ++ b) ++ t) := goal1
        _ = svgSuffix (b ++ t) := ih h hb

theorem keepTail_eq_drop (s : Str) : keepTail s = s.drop (s.length - 100) := by
  unfold keepTail
  split
  · rfl
  · next h =>
    rw [Nat.sub_eq_zero_of_le (by omega), List.drop_zero]

theorem keepTail_split (s : Str) : s = s.take (s.length - 100) ++ keepTail s := by
  rw [keepTail_eq_drop, List.take_append_drop]

theorem keepTail_comp (s c : Str) : keepTail (keepTail s ++ c) = keepTail (s ++ c) := by
  rw [keepTail_eq_drop s, keepTail_eq_drop, keepTail_eq_drop,
    List.drop_append_eq_append_drop, List.drop_append_eq_append_drop, List.drop_drop]
  have e1 : (s.length - 100) + ((s.drop (s.length - 100) ++ c).length - 100)
      = (s ++ c).length - 100 := by
    simp only [List.length_append, List.length_drop]
    omega
  have e2 : (s.drop (s.length - 100) ++ c).length - 100 - (s.drop (s.length - 100)).length
      = (s ++ c).length - 100 - s.length := by
    simp only [List.length_append, List.length_drop]
    omega
  rw [e1, e2]

theorem svgSuffix_keepTail (B c2 : Str) (h : svgSuffix B = none) :
    svgSuffix (keepTail B ++ c2) = svgSuffix (B ++ c2) := by
  by_cases hl : B.length > 100
  · have hsplit := keepTail_split B
    have h3 : 3 ≤ (keepTail B).length := by
      rw [keepTail_eq_drop, List.length_drop]
      omega
    have hd := svgSuffix_drop c2 (B.take (B.length - 100))
      (by rw [← keepTail_split]; exact h) h3
    rw [← hsplit] at hd
    exact hd.symm
  · unfold keepTail
    rw [if_neg hl]

theorem feed_char_diverged {st : ParserState} (c : Str) (hd : st.diverged = true) :
    feed st c = ⟨st, [], []⟩ := by
  unfold feed
  rw [if_pos hd]

theorem feed_char_none {st : ParserState} (c : Str) (hd : st.diverged = false)
    (hst : st.svgStarted = false) (hm : svgSuffix (st.buffer ++ c) = none) :
    feed st c = ⟨{ st with buffer := keepTail (st.buffer ++ c) }, [], []⟩ := by
  unfold feed
  rw [if_neg (by simp [hd]), hst]
  simp only [hm, if_pos]

theorem feed_char_some {st : ParserState} {u : Str} (c : Str) (hd : st.diverged = false)
    (hst : st.svgStarted = false) (hm : svgSuffix (st.buffer ++ c) = some u) :
    feed st c = ⟨⟨(extractPaths u st.style).buf, (extractPaths u st.style).style, true,
      (extractPaths u st.style).diverged⟩,
      (extractPaths u st.style).segs, (extractPaths u st.style).warns⟩ := by
  unfold feed
  rw [if_neg (by simp [hd]), hst]
  simp only [hm, if_pos]

theorem feed_char_started {st : ParserState} (c : Str) (hd : st.diverged = false)
    (hst : st.svgStarted = true) :
    feed st c = ⟨⟨(extractPaths (st.buffer ++ c) st.style).buf,
      (extractPaths (st.buffer ++ c) st.style).style, true,
      (extractPaths (st.buffer ++ c) st.style).diverged⟩,
      (extractPaths (st.buffer ++ c) st.style).segs,
      (extractPaths (st.buffer ++ c) st.style).warns⟩ := by
  unfold feed
  rw [if_neg (by simp [hd]), hst]
  simp

theorem feed_append (st : ParserState) (c1 c2 : Str) (hd : st.diverged = false) :
    (feed st (c1 ++ c2)).segs =
      (feed st c1).segs ++
        (if (feed st c1).state.diverged = true then []
          else (feed (feed st c1).state c2).segs) := by
  cases hst : st.svgStarted with
  | false =>
    cases hm : svgSuffix (st.buffer ++ c1) with
    | none =>
      have e1 := feed_char_none c1 hd hst hm
      rw [e1]
      simp only []
      rw [if_neg (by simp [hd])]
      have hbuf : st.buffer ++ (c1 ++ c2) = (st.buffer ++ c1) ++ c2 := by
        rw [List.append_assoc]
      have hsv : svgSuffix (keepTail (st.buffer ++ c1) ++ c2)
          = svgSuffix ((st.buffer ++ c1) ++ c2) := svgSuffix_keepTail _ _ hm
      cases hm2 : svgSuffix ((st.buffer ++ c1) ++ c2) with
      | none =>
        have e0 := feed_char_none (c1 ++ c2) hd hst (by rw [hbuf]; exact hm2)
        rw [e0]
        have e2 := @feed_char_none ⟨keepTail (st.buffer ++ c1), st.style, st.svgStarted,
          st.diverged⟩ c2 hd hst
          (show svgSuffix (keepTail (st.buffer ++ c1) ++ c2) = none by rw [hsv]; exact hm2)
        rw [e2]
        simp
      | some u =>
        have e0 := feed_char_some (c1 ++ c2) hd hst (by rw [hbuf]; exact hm2)
        rw [e0]
        have e2 := @feed_char_some ⟨keepTail (st.buffer ++ c1), st.style, st.svgStarted,
          st.diverged⟩ u c2 hd hst
          (show svgSuffix (keepTail (st.buffer ++ c1) ++ c2) = some u by rw [hsv]; exact hm2)
        rw [e2]
        simp only []
        rfl
    | some u =>
      have e1 := feed_char_some c1 hd hst hm
      rw [e1]
      simp only []
      have hm2 : svgSuffix (st.buffer ++ (c1 ++ c2)) = some (u ++ c2) := by
        rw [← List.append_assoc]
        exact svgSuffix_append c2 hm
      have e0 := feed_char_some (c1 ++ c2) hd hst hm2
      rw [e0]
      simp only []
      cases hdv : (extractPaths u st.style).diverged with
      | true =>
        rw [if_pos rfl, extractPaths_segs, extractPaths_segs, extractLoop_append,
          if_pos (by rw [← extractPaths_diverged]; exact hdv)]
        simp
      | false =>
        rw [if_neg Bool.false_ne_true]
        have e2 := @feed_char_started ⟨(extractPaths u st.style).buf,
          (extractPaths u st.style).style, true, false⟩ c2 rfl rfl
        rw [e2]
        simp only []
        rw [extractPaths_segs, extractPaths_segs, extractPaths_segs,
          extractPaths_buf, extractPaths_style, extractLoop_append,
          if_neg (by rw [← extractPaths_diverged, hdv]; exact Bool.false_ne_true)]
  | true =>
    have e1 := feed_char_started c1 hd hst
    rw [e1]
    simp only []
    have hbuf : st.buffer ++ (c1 ++ c2) = (st.buffer ++ c1) ++ c2 := by
      rw [List.append_assoc]
    have e0 := feed_char_started (c1 ++ c2) hd hst
    rw [e0, hbuf]
    simp only []
    cases hdv : (extractPaths (st.buffer ++ c1) st.style).diverged with
    | true =>
      rw [if_pos rfl, extractPaths_segs, extractPaths_segs, extractLoop_append,
        if_pos (by rw [← extractPaths_diverged]; exact hdv)]
      simp
    | false =>
      rw [if_neg Bool.false_ne_true]
      have e2 := @feed_char_started ⟨(extractPaths (st.buffer ++ c1) st.style).buf,
        (extractPaths (st.buffer ++ c1) st.style).style, true, false⟩ c2 rfl rfl
      rw [e2]
      simp only []
      rw [extractPaths_segs, extractPaths_segs, extractPaths_segs,
        extractPaths_buf, extractPaths_style, extractLoop_append,
        if_neg (by rw [← extractPaths_diverged, hdv]; exact Bool.false_ne_true)]

theorem feed_inv (st : ParserState) (c : Str)
    (hd : (feed st c).state.diverged = false) :
    ((feed st c).state.svgStarted = false → svgSuffix (feed st c).state.buffer = none) ∧
      ((feed st c).state.svgStarted = true → findPathElem (feed st c).state.buffer = none) := by
  cases hdp : st.diverged with
  | true =>
    rw [feed_char_diverged c hdp] at hd
    rw [hdp] at hd
    exact absurd hd (by simp)
  | false =>
    cases hst : st.svgStarted with
    | false =>
      cases hm : svgSuffix (st.buffer ++ c) with
      | none =>
        rw [feed_char_none c hdp hst hm]
        constructor
        · intro _
          have hsplit := keepTail_split (st.buffer ++ c)
          have h2 : svgSuffix ((st.buffer ++ c).take ((st.buffer ++ c).length - 100) ++
              keepTail (st.buffer ++ c)) = none := by
            rw [← hsplit]
            exact hm
          exact svgSuffix_none_tail _ h2
        · intro hh
          rw [hst] at hh
          exact absurd hh (by simp)
      | some u =>
        rw [feed_char_some c hdp hst hm] at hd ⊢
        constructor
        · intro hh
          exact absurd hh (by simp)
        · intro _
          rw [extractPaths_buf]
          exact extractLoop_buf_none (by rw [← extractPaths_diverged]; exact hd)
    | true =>
      rw [feed_char_started c hdp hst] at hd ⊢
      constructor
      · intro hh
        exact absurd hh (by simp)
      · intro _
        rw [extractPaths_buf]
        exact extractLoop_buf_none (by rw [← extractPaths_diverged]; exact hd)

theorem feed_nil_segs (st : ParserState)
    (h2 : st.svgStarted = false → svgSuffix st.buffer = none)
    (h3 : st.svgStarted = true → findPathElem st.buffer = none) :
    (feed st []).segs = [] := by
  cases hdp : st.diverged with
  | true => rw [feed_char_diverged [] hdp]
  | false =>
    cases hst : st.svgStarted with
    | false =>
      rw [feed_char_none [] hdp hst (by rw [List.append_nil]; exact h2 hst)]
    | true =>
      rw [feed_char_started [] hdp hst]
      rw [extractPaths_segs, List.append_nil, extractLoop_eq, h3 hst]

theorem feedMany_segs : ∀ (cs : List Str) (st : ParserState),
    st.diverged = false →
    (st.svgStarted = false → svgSuffix st.buffer = none) →
    (st.svgStarted = true → findPathElem st.buffer = none) →
    (feedMany st cs).segs = (feed st cs.flatten).segs := by
  intro cs
  induction cs with
  | nil =>
    intro st h1 h2 h3
    rw [List.flatten_nil]
    unfold feedMany
    exact (feed_nil_segs st h2 h3).symm
  | cons c cs ih =>
    intro st h1 h2 h3
    rw [List.flatten_cons, feed_append st c cs.flatten h1]
    unfold feedMany
    cases hdv : (feed st c).state.diverged with
    | true => simp [hdv]
    | false =>
      simp only []
      rw [hdv, if_neg Bool.false_ne_true, if_neg Bool.false_ne_true]
      obtain ⟨g2, g3⟩ := feed_inv st c hdv
      simp only []
      rw [ih (feed st c).state hdv g2 g3]


/-- C1: fragmentation invariance — feeding a document split into any list
of fragments produces exactly the same ordered segment sequence as feeding
the concatenated text as one fragment: starting from the fresh parser
state, the segments emitted by the sequence of `feed` calls equal the
segments emitted by a single `feed` of the flattened text. -/
theorem C1_fragmentation_invariance (chunks : List Str) :
    (feedMany initParser chunks).segs = (feed initParser chunks.flatten).segs :=
  feedMany_segs chunks initParser rfl (fun _ => rfl) (fun _ => rfl)


/-! ### Renderer stepping lemmas (C2, C3) -/

theorem ctxAdd_beginPath (c : Ctx) (cmd : PathCmd) :
    ctxAdd (ctxBeginPath c) cmd = { c with path := [cmd] } := rfl

theorem incOf_pos (st : RState) : 0 < incOf st := by
  unfold incOf
  split
  · next h =>
    unfold pixelsPerFrame
    positivity
  · norm_num [minFramesPerSegment]

theorem advance_moveTo (st : RState) (s : Segment) (mx my : ℚ)
    (hc : st.currentSegment = some s) (hsg : s.seg = .moveTo mx my) :
    advanceSegmentAnimation st =
      { st with
        ctx := { (if st.pathStarted then ctxStroke st.ctx else st.ctx) with
          path := [.moveTo mx my] }
        penX := mx
        penY := my
        pathStarted := true
        currentSegment := none } := by
  obtain ⟨sg, sty⟩ := s
  simp only [] at hsg
  subst hsg
  unfold advanceSegmentAnimation
  rw [hc]
  rfl

theorem advance_eq (st : RState) (s : Segment) (hc : st.currentSegment = some s)
    (hnm : s.seg.isMove = false) :
    advanceSegmentAnimation st =
      (if 1 ≤ min 1 (st.segmentProgress + incOf st) then
        { st with
          ctx := { ctxStroke { st.ctx with
              path := [.moveTo st.segmentStartX st.segmentStartY,
                partialCmd s.seg st.segmentStartX st.segmentStartY
                  (min 1 (st.segmentProgress + incOf st))] } with
            path := [.moveTo s.seg.endPt.1 s.seg.endPt.2] }
          segmentProgress := min 1 (st.segmentProgress + incOf st)
          penX := s.seg.endPt.1
          penY := s.seg.endPt.2
          pathStarted := flagAfterSeg s.seg
          currentSegment := none }
      else
        { st with
          ctx := ctxStroke { st.ctx with
            path := [.moveTo st.segmentStartX st.segmentStartY,
              partialCmd s.seg st.segmentStartX st.segmentStartY
                (min 1 (st.segmentProgress + incOf st))] }
          segmentProgress := min 1 (st.segmentProgress + incOf st)
          penX := (interpolatePoint s.seg st.segmentStartX st.segmentStartY
            (min 1 (st.segmentProgress + incOf st))).1
          penY := (interpolatePoint s.seg st.segmentStartX st.segmentStartY
            (min 1 (st.segmentProgress + incOf st))).2
          pathStarted := true }) := by
  obtain ⟨sg, sty⟩ := s
  cases sg with
  | moveTo mx my => simp [Seg.isMove] at hnm
  | lineTo x y =>
    cases hps : st.pathStarted with
    | false =>
      unfold advanceSegmentAnimation
      rw [hc]
      simp only [hps]
      rfl
    | true =>
      unfold advanceSegmentAnimation
      rw [hc]
      simp only [hps]
      rfl
  | closePath x y =>
    cases hps : st.pathStarted with
    | false =>
      unfold advanceSegmentAnimation
      rw [hc]
      simp only [hps]
      rfl
    | true =>
      unfold advanceSegmentAnimation
      rw [hc]
      simp only [hps]
      rfl
  | quadTo x1 y1 x y =>
    cases hps : st.pathStarted with
    | false =>
      unfold advanceSegmentAnimation
      rw [hc]
      simp only [hps]
      rfl
    | true =>
      unfold advanceSegmentAnimation
      rw [hc]
      simp only [hps]
      rfl
  | cubicTo x1 y1 x2 y2 x y =>
    cases hps : st.pathStarted with
    | false =>
      unfold advanceSegmentAnimation
      rw [hc]
      simp only [hps]
      rfl
    | true =>
      unfold advanceSegmentAnimation
      rw [hc]
      simp only [hps]
      rfl

theorem drawE_notDrawing (st : RState) (h : st.isDrawing = false) : drawE st = (st, []) := by
  unfold drawE
  rw [if_pos h]

theorem drawE_idle (st : RState) (h1 : st.isDrawing = true) (h2 : st.currentSegment = none)
    (h3 : st.queue = []) : drawE st = ({ st with isDrawing := false }, []) := by
  unfold drawE
  rw [if_neg (by simp [h1])]
  simp only [h2, h3]

theorem drawE_current (st : RState) (s : Segment) (h1 : st.isDrawing = true)
    (hc : st.currentSegment = some s) :
    drawE st =
      (if (advanceSegmentAnimation st).currentSegment.isSome
            || (advanceSegmentAnimation st).queue ≠ [] then advanceSegmentAnimation st
        else { advanceSegmentAnimation st with isDrawing := false },
       if (advanceSegmentAnimation st).currentSegment = none then [s.seg.endPt] else []) := by
  unfold drawE
  rw [if_neg (by simp [h1])]
  simp only [hc]

theorem drawE_begin (st : RState) (s : Segment) (rest : List Segment)
    (h1 : st.isDrawing = true) (hc : st.currentSegment = none) (hq : st.queue = s :: rest) :
    drawE st = drawE (beginSegmentAnimation { st with queue := rest } s) := by
  have hb1 : (beginSegmentAnimation { st with queue := rest } s).isDrawing = true := h1
  unfold drawE
  rw [if_neg (by simp [h1]), if_neg (by simp [hb1])]
  simp only [hc, hq]
  rfl

theorem runE_succ (n : Nat) (st : RState) :
    runE (n + 1) st = ((runE n (drawE st).1).1, (drawE st).2 ++ (runE n (drawE st).1).2) := rfl

theorem runE_add (a b : Nat) (st : RState) :
    runE (a + b) st = ((runE b (runE a st).1).1, (runE a st).2 ++ (runE b (runE a st).1).2) := by
  induction a generalizing st with
  | zero => simp [runE]
  | succ a ih =>
    have hn : a + 1 + b = (a + b) + 1 := by omega
    rw [hn, runE_succ, runE_succ, ih]
    simp [List.append_assoc]

theorem runE_congr_first (st st' : RState) (m : Nat) (h : drawE st = drawE st')
    (hm : 0 < m) : runE m st = runE m st' := by
  cases m with
  | zero => omega
  | succ m => rw [runE_succ, runE_succ, h]

theorem completes_from_mid : ∀ (n : ℕ) (st : RState) (s : Segment),
    st.isDrawing = true → st.currentSegment = some s → s.seg.isMove = false →
    0 ≤ st.segmentProgress →
    1 ≤ st.segmentProgress + (n + 1) * incOf st →
    ∃ m st', 0 < m ∧
      runE m st = (st', [s.seg.endPt]) ∧
      st'.currentSegment = none ∧
      st'.queue = st.queue ∧
      st'.penX = s.seg.endPt.1 ∧ st'.penY = s.seg.endPt.2 ∧
      (st.queue = [] → hasPending st' = false) ∧
      (st.queue ≠ [] → st'.isDrawing = true) := by
  intro n
  induction n with
  | zero =>
    intro st s h1 hc hnm hpr hfuel
    have hprog : min 1 (st.segmentProgress + incOf st) = 1 :=
      min_eq_left (by push_cast at hfuel; linarith)
    have hadv := advance_eq st s hc hnm
    rw [hprog, if_pos le_rfl] at hadv
    have hdE := drawE_current st s h1 hc
    rw [hadv] at hdE
    refine ⟨1, (drawE st).1, Nat.one_pos, ?_, ?_, ?_, ?_, ?_, ?_, ?_⟩
    · show runE (0 + 1) st = _
      rw [runE_succ]
      simp only [runE]
      rw [hdE]
      simp
    · rw [hdE]
      simp only []
      split <;> rfl
    · rw [hdE]
      simp only []
      split <;> rfl
    · rw [hdE]
      simp only []
      split <;> rfl
    · rw [hdE]
      simp only []
      split <;> rfl
    · intro hq
      rw [hdE]
      simp [hasPending, hq]
    · intro hq
      rw [hdE]
      simp only []
      rw [if_pos (by simp [hq])]
      exact h1
  | succ n ih =>
    intro st s h1 hc hnm hpr hfuel
    by_cases hp1 : 1 ≤ st.segmentProgress + incOf st
    · refine ih st s h1 hc hnm hpr ?_
      have hi := incOf_pos st
      have hn0 : (0 : ℚ) ≤ (n : ℚ) := Nat.cast_nonneg n
      have hni : 0 ≤ (n : ℚ) * incOf st := mul_nonneg hn0 (le_of_lt hi)
      push_cast
      linarith
    · push_neg at hp1
      have hprog : min 1 (st.segmentProgress + incOf st)
          = st.segmentProgress + incOf st := min_eq_right (le_of_lt hp1)
      have hadv := advance_eq st s hc hnm
      rw [hprog, if_neg (by push_neg; exact hp1)] at hadv
      have hinc2 : incOf (advanceSegmentAnimation st) = incOf st := by
        rw [hadv]
        rfl
      have h1' : (advanceSegmentAnimation st).isDrawing = true := by rw [hadv]; exact h1
      have hc' : (advanceSegmentAnimation st).currentSegment = some s := by rw [hadv]; exact hc
      have hpr' : 0 ≤ (advanceSegmentAnimation st).segmentProgress := by
        rw [hadv]
        show 0 ≤ st.segmentProgress + incOf st
        have := incOf_pos st
        linarith
      have hfuel' : 1 ≤ (advanceSegmentAnimation st).segmentProgress
          + (n + 1) * incOf (advanceSegmentAnimation st) := by
        rw [hinc2, hadv]
        show 1 ≤ st.segmentProgress + incOf st + ((n : ℚ) + 1) * incOf st
        push_cast at hfuel
        linarith
      obtain ⟨m, st', hm, hrun, a1, a2, a3, a4, a5, a6⟩ :=
        ih (advanceSegmentAnimation st) s h1' hc' hnm hpr' hfuel'
      have hdE := drawE_current st s h1 hc
      rw [hc'] at hdE
      simp at hdE
      refine ⟨m + 1, st', by omega, ?_, a1, ?_, a3, a4, ?_, ?_⟩
      · rw [runE_succ, hdE]
        simp only []
        rw [hrun]
        simp
      · rw [a2, hadv]
      · intro hq
        exact a5 (by rw [hadv]; exact hq)
      · intro hq
        refine a6 (fun hqe => hq ?_)
        rw [hadv] at hqe
        exact hqe


theorem exists_fuel (q : ℚ) (hq : 0 < q) : ∃ n : ℕ, 1 ≤ ((n : ℚ) + 1) * q := by
  obtain ⟨n, hn⟩ := exists_nat_gt (1 / q)
  refine ⟨n, ?_⟩
  have h2 : 1 / q ≤ (n : ℚ) + 1 := by linarith
  have h3 : (1 / q) * q ≤ ((n : ℚ) + 1) * q := mul_le_mul_of_nonneg_right h2 (le_of_lt hq)
  have h4 : (1 / q) * q = 1 := by field_simp
  linarith

theorem completes_moveTo (st : RState) (s : Segment) (mx my : ℚ)
    (h1 : st.isDrawing = true) (hc : st.currentSegment = some s)
    (hsg : s.seg = .moveTo mx my) :
    ∃ m st', 0 < m ∧
      runE m st = (st', [s.seg.endPt]) ∧
      st'.currentSegment = none ∧
      st'.queue = st.queue ∧
      st'.penX = s.seg.endPt.1 ∧ st'.penY = s.seg.endPt.2 ∧
      (st.queue = [] → hasPending st' = false) ∧
      (st.queue ≠ [] → st'.isDrawing = true) := by
  have hadv := advance_moveTo st s mx my hc hsg
  have hdE := drawE_current st s h1 hc
  rw [hadv] at hdE
  cases hqq : st.queue with
  | nil =>
    rw [hqq] at hdE
    simp at hdE
    refine ⟨1, (drawE st).1, Nat.one_pos, ?_, ?_, ?_, ?_, ?_, ?_, ?_⟩
    · show runE (0 + 1) st = _
      rw [runE_succ]
      simp only [runE]
      rw [hdE]
      simp
    · simp [hdE]
    · simp [hdE, hqq]
    · simp [hdE, hsg, Seg.endPt]
    · simp [hdE, hsg, Seg.endPt]
    · intro _
      rw [hdE]
      simp [hasPending]
    · intro hq
      exact (hq rfl).elim
  | cons a b =>
    rw [hqq] at hdE
    simp at hdE
    refine ⟨1, (drawE st).1, Nat.one_pos, ?_, ?_, ?_, ?_, ?_, ?_, ?_⟩
    · show runE (0 + 1) st = _
      rw [runE_succ]
      simp only [runE]
      rw [hdE]
      simp
    · simp [hdE]
    · simp [hdE, hqq]
    · simp [hdE, hsg, Seg.endPt]
    · simp [hdE, hsg, Seg.endPt]
    · intro hq
      exact (List.cons_ne_nil a b hq).elim
    · intro _
      rw [hdE]
      exact h1

theorem completes_one (st : RState) (s : Segment) (h1 : st.isDrawing = true)
    (hc : st.currentSegment = some s) (hpr : 0 ≤ st.segmentProgress) :
    ∃ m st', 0 < m ∧
      runE m st = (st', [s.seg.endPt]) ∧
      st'.currentSegment = none ∧
      st'.queue = st.queue ∧
      st'.penX = s.seg.endPt.1 ∧ st'.penY = s.seg.endPt.2 ∧
      (st.queue = [] → hasPending st' = false) ∧
      (st.queue ≠ [] → st'.isDrawing = true) := by
  cases hmov : s.seg.isMove with
  | false =>
    obtain ⟨nF, hnF⟩ := exists_fuel (incOf st) (incOf_pos st)
    exact completes_from_mid nF st s h1 hc hmov hpr (by linarith)
  | true =>
    cases hsg : s.seg with
    | moveTo mx my =>
      rw [← hsg]
      exact completes_moveTo st s mx my h1 hc hsg
    | lineTo x y => rw [hsg] at hmov; simp [Seg.isMove] at hmov
    | quadTo x1 y1 x y => rw [hsg] at hmov; simp [Seg.isMove] at hmov
    | cubicTo x1 y1 x2 y2 x y => rw [hsg] at hmov; simp [Seg.isMove] at hmov
    | closePath x y => rw [hsg] at hmov; simp [Seg.isMove] at hmov

theorem run_all : ∀ (segs : List Segment) (st : RState),
    st.isDrawing = true → st.currentSegment = none → st.queue = segs →
    ∃ n st', runE n st = (st', segs.map (fun g => Seg.endPt g.seg)) ∧
      hasPending st' = false ∧
      st'.penX = (lastEnd (st.penX, st.penY) segs).1 ∧
      st'.penY = (lastEnd (st.penX, st.penY) segs).2 := by
  intro segs
  induction segs with
  | nil =>
    intro st h1 hc hq
    refine ⟨1, { st with isDrawing := false }, ?_, ?_, rfl, rfl⟩
    · show runE (0 + 1) st = _
      rw [runE_succ, drawE_idle st h1 hc hq]
      simp [runE]
    · simp [hasPending, hq, hc]
  | cons s rest ih =>
    intro st h1 hc hq
    have hbegin := drawE_begin st s rest h1 hc hq
    have h1B : (beginSegmentAnimation { st with queue := rest } s).isDrawing = true := h1
    have hcB : (beginSegmentAnimation { st with queue := rest } s).currentSegment = some s := rfl
    have hprB : 0 ≤ (beginSegmentAnimation { st with queue := rest } s).segmentProgress :=
      le_refl 0
    obtain ⟨m, st', hm, hrunB, b1, b2, b3, b4, b5, b6⟩ :=
      completes_one (beginSegmentAnimation { st with queue := rest } s) s h1B hcB hprB
    have hrun : runE m st = (st', [s.seg.endPt]) := by
      rw [runE_congr_first st _ m hbegin hm, hrunB]
    have hqB : (beginSegmentAnimation { st with queue := rest } s).queue = rest := rfl
    rw [hqB] at b2 b5 b6
    cases rest with
    | nil =>
      refine ⟨m, st', ?_, b5 rfl, ?_, ?_⟩
      · rw [hrun]
        simp
      · rw [b3]
        rfl
      · rw [b4]
        rfl
    | cons r2 rest2 =>
      obtain ⟨n', st'', hrun', hpend', hx, hy⟩ := ih st' (b6 (by simp)) b1 b2
      refine ⟨m + n', st'', ?_, hpend', ?_, ?_⟩
      · rw [runE_add, hrun]
        simp only []
        rw [hrun']
        simp
      · rw [hx]
        simp [lastEnd]
      · rw [hy]
        simp [lastEnd]

/-- C2: animation completeness — from a renderer whose queue holds any
finite segment list with the animation started, some number of frames
brings `hasPending` to `false`; the completion events over that run visit
the true endpoint of every segment exactly once, in queue order, and the
final pen position is the last segment's endpoint (the chained endpoint
of the whole list from the initial pen). -/
theorem C2_animation_completeness (segs : List Segment) :
    ∃ n st', runE n (startedWith segs) = (st', segs.map (fun g => Seg.endPt g.seg)) ∧
      hasPending st' = false ∧
      st'.penX = (lastEnd (0, 0) segs).1 ∧
      st'.penY = (lastEnd (0, 0) segs).2 :=
  run_all segs (startedWith segs) rfl rfl rfl


/-! ### Point-set lemmas for flush equivalence (C3) -/

theorem inkPts_append (a b : List InkStroke) : inkPts (a ++ b) = inkPts a ∪ inkPts b := by
  induction a with
  | nil => simp [inkPts]
  | cons x a ih => simp [inkPts, ih, Set.union_assoc]

theorem strokePts_single_move (col : Str) (w a b : ℚ) :
    strokePts ⟨col, w, [.moveTo a b]⟩ = ∅ := by
  unfold strokePts
  simp [pathPts, cmdPts]

theorem strokePts_anchor_cmd (col : Str) (w a b : ℚ) (c : PathCmd) :
    strokePts ⟨col, w, [.moveTo a b, c]⟩ =
      { x | ∃ q, q ∈ cmdPts (a, b) c ∧ x = (col, w, q.1, q.2) } := by
  unfold strokePts
  have hp : pathPts (0, 0) [PathCmd.moveTo a b, c] = cmdPts (a, b) c := by
    simp [pathPts, cmdPts, PathCmd.endPt]
  rw [hp]

theorem segStyledPts_move (p : ℚ × ℚ) (s : Segment) (mx my : ℚ) (h : s.seg = .moveTo mx my) :
    segStyledPts p s = ∅ := by
  unfold segStyledPts
  rw [h]
  simp [segFullPts]

theorem segsPts_append (a b : List Segment) :
    ∀ p, segsPts p (a ++ b) = segsPts p a ∪ segsPts (lastEnd p a) b := by
  induction a with
  | nil => intro p; simp [segsPts, lastEnd]
  | cons s a ih =>
    intro p
    simp only [List.cons_append, segsPts, lastEnd, List.append_eq]
    rw [ih, Set.union_assoc]

theorem lastEnd_append (a b : List Segment) :
    ∀ p, lastEnd p (a ++ b) = lastEnd (lastEnd p a) b := by
  induction a with
  | nil => intro p; simp [lastEnd]
  | cons s a ih =>
    intro p
    simp only [List.cons_append, lastEnd, List.append_eq]
    rw [ih]

theorem foldFlag_append (a b : List Segment) :
    ∀ f, foldFlag f (a ++ b) = foldFlag (foldFlag f a) b := by
  induction a with
  | nil => intro f; simp [foldFlag]
  | cons s a ih =>
    intro f
    simp only [List.cons_append, foldFlag, List.append_eq]
    rw [ih]

theorem wfFrom_cons {f : Bool} {s : Segment} {rest : List Segment}
    (h : wfFrom f (s :: rest) = true) :
    (∀ x y, s.seg = .closePath x y → f = true) ∧ wfFrom (flagAfterSeg s.seg) rest = true := by
  cases hsg : s.seg with
  | closePath x y =>
    simp only [wfFrom, hsg, Bool.and_eq_true] at h
    exact ⟨fun _ _ _ => h.1, h.2⟩
  | moveTo x y =>
    simp only [wfFrom, hsg] at h
    exact ⟨fun a b hxy => Seg.noConfusion hxy, h⟩
  | lineTo x y =>
    simp only [wfFrom, hsg] at h
    exact ⟨fun a b hxy => Seg.noConfusion hxy, h⟩
  | quadTo x1 y1 x y =>
    simp only [wfFrom, hsg] at h
    exact ⟨fun a b hxy => Seg.noConfusion hxy, h⟩
  | cubicTo x1 y1 x2 y2 x y =>
    simp only [wfFrom, hsg] at h
    exact ⟨fun a b hxy => Seg.noConfusion hxy, h⟩

theorem piece_subset (sg : Seg) (ax ay prog : ℚ) (h0 : 0 ≤ prog) (h1 : prog ≤ 1) :
    cmdPts (ax, ay) (partialCmd sg ax ay prog) ⊆ segFullPts (ax, ay) sg := by
  cases sg with
  | moveTo x y =>
    intro q hq
    simp [partialCmd, cmdPts] at hq
  | lineTo x y =>
    intro q hq
    simp only [partialCmd, cmdPts, Set.mem_setOf_eq] at hq
    obtain ⟨t, ht, he⟩ := hq
    obtain ⟨ht0, ht1⟩ := ht
    simp only [segFullPts, cmdPts, Set.mem_setOf_eq]
    refine ⟨t * prog, And.intro (mul_nonneg ht0 h0) ?_, ?_⟩
    · have h2 : t * prog ≤ 1 * prog := mul_le_mul_of_nonneg_right ht1 h0
      linarith
    · rw [he]
      simp only [lerp, Prod.mk.injEq]
      constructor <;> ring
  | closePath x y =>
    intro q hq
    simp only [partialCmd, cmdPts, Set.mem_setOf_eq] at hq
    obtain ⟨t, ht, he⟩ := hq
    obtain ⟨ht0, ht1⟩ := ht
    simp only [segFullPts, cmdPts, Set.mem_setOf_eq]
    refine ⟨t * prog, And.intro (mul_nonneg ht0 h0) ?_, ?_⟩
    · have h2 : t * prog ≤ 1 * prog := mul_le_mul_of_nonneg_right ht1 h0
      linarith
    · rw [he]
      simp only [lerp, Prod.mk.injEq]
      constructor <;> ring
  | quadTo x1 y1 x y =>
    intro q hq
    simp only [partialCmd, cmdPts, Set.mem_setOf_eq] at hq
    obtain ⟨t, ht, he⟩ := hq
    obtain ⟨ht0, ht1⟩ := ht
    simp only [segFullPts, cmdPts, Set.mem_setOf_eq]
    refine ⟨t * prog, And.intro (mul_nonneg ht0 h0) ?_, ?_⟩
    · have h2 : t * prog ≤ 1 * prog := mul_le_mul_of_nonneg_right ht1 h0
      linarith
    · rw [he]
      simp only [quadPt, Prod.mk.injEq]
      constructor <;> ring
  | cubicTo x1 y1 x2 y2 x y =>
    intro q hq
    simp only [partialCmd, cmdPts, Set.mem_setOf_eq] at hq
    obtain ⟨t, ht, he⟩ := hq
    obtain ⟨ht0, ht1⟩ := ht
    simp only [segFullPts, cmdPts, Set.mem_setOf_eq]
    refine ⟨t * prog, And.intro (mul_nonneg ht0 h0) ?_, ?_⟩
    · have h2 : t * prog ≤ 1 * prog := mul_le_mul_of_nonneg_right ht1 h0
      linarith
    · rw [he]
      simp only [cubicPt, Prod.mk.injEq]
      constructor <;> ring

theorem piece_full (sg : Seg) (ax ay : ℚ) :
    cmdPts (ax, ay) (partialCmd sg ax ay 1) = segFullPts (ax, ay) sg := by
  apply Set.Subset.antisymm
  · exact piece_subset sg ax ay 1 (by norm_num) (le_refl 1)
  · cases sg with
    | moveTo x y =>
      intro q hq
      simp [segFullPts] at hq
    | lineTo x y =>
      intro q hq
      simp only [segFullPts, cmdPts, Set.mem_setOf_eq] at hq
      obtain ⟨t, ht, he⟩ := hq
      simp only [partialCmd, cmdPts, Set.mem_setOf_eq]
      refine ⟨t, ht, ?_⟩
      rw [he]
      simp only [lerp, Prod.mk.injEq]
      constructor <;> ring
    | closePath x y =>
      intro q hq
      simp only [segFullPts, cmdPts, Set.mem_setOf_eq] at hq
      obtain ⟨t, ht, he⟩ := hq
      simp only [partialCmd, cmdPts, Set.mem_setOf_eq]
      refine ⟨t, ht, ?_⟩
      rw [he]
      simp only [lerp, Prod.mk.injEq]
      constructor <;> ring
    | quadTo x1 y1 x y =>
      intro q hq
      simp only [segFullPts, cmdPts, Set.mem_setOf_eq] at hq
      obtain ⟨t, ht, he⟩ := hq
      simp only [partialCmd, cmdPts, Set.mem_setOf_eq]
      refine ⟨t, ht, ?_⟩
      rw [he]
      simp only [quadPt, Prod.mk.injEq]
      constructor <;> ring
    | cubicTo x1 y1 x2 y2 x y =>
      intro q hq
      simp only [segFullPts, cmdPts, Set.mem_setOf_eq] at hq
      obtain ⟨t, ht, he⟩ := hq
      simp only [partialCmd, cmdPts, Set.mem_setOf_eq]
      refine ⟨t, ht, ?_⟩
      rw [he]
      simp only [cubicPt, Prod.mk.injEq]
      constructor <;> ring

theorem ink_absorb {base S P : Set StyledPt} (h1 : base ⊆ P) (h2 : P ⊆ base ∪ S) :
    P ∪ S = base ∪ S := by
  apply Set.Subset.antisymm
  · exact Set.union_subset (le_trans h2 (by simp [Set.union_subset_iff, Set.subset_union_left])) Set.subset_union_right
  · exact Set.union_subset_union_left S h1


theorem instant_step (st : RState) (s : Segment)
    (hB : st.pathStarted = true → st.ctx.path = [PathCmd.moveTo st.penX st.penY])
    (hcp : ∀ x y, s.seg = .closePath x y → st.pathStarted = true) :
    inkPts (drawSegmentInstant st s).ctx.ink
      = inkPts st.ctx.ink ∪ segStyledPts (st.penX, st.penY) s ∧
    (drawSegmentInstant st s).penX = s.seg.endPt.1 ∧
    (drawSegmentInstant st s).penY = s.seg.endPt.2 ∧
    (drawSegmentInstant st s).pathStarted = flagAfterSeg s.seg ∧
    ((drawSegmentInstant st s).pathStarted = true →
      (drawSegmentInstant st s).ctx.path
        = [PathCmd.moveTo (drawSegmentInstant st s).penX (drawSegmentInstant st s).penY]) ∧
    (drawSegmentInstant st s).queue = st.queue ∧
    (drawSegmentInstant st s).isDrawing = st.isDrawing ∧
    (drawSegmentInstant st s).currentSegment = st.currentSegment := by
  obtain ⟨sg, sty⟩ := s
  cases sg with
  | moveTo x y =>
    cases hps : st.pathStarted with
    | true =>
      have hD : drawSegmentInstant st ⟨.moveTo x y, sty⟩ =
          { st with
            ctx := { (ctxStroke { st.ctx with
                strokeStyle := styleStroke sty
                lineWidth := styleWidth sty
                path := [PathCmd.moveTo st.penX st.penY] }) with
              path := [PathCmd.moveTo x y] }
            penX := x
            penY := y
            pathStarted := true } := by
        have hpath := hB hps
        unfold drawSegmentInstant
        simp only [hps, hpath]
        rfl
      rw [hD]
      refine ⟨?_, rfl, rfl, rfl, fun _ => rfl, rfl, rfl, rfl⟩
      show inkPts (st.ctx.ink ++ [⟨styleStroke sty, styleWidth sty,
          [PathCmd.moveTo st.penX st.penY]⟩])
        = inkPts st.ctx.ink ∪ segStyledPts (st.penX, st.penY) ⟨Seg.moveTo x y, sty⟩
      rw [inkPts_append, segStyledPts_move (st.penX, st.penY) ⟨Seg.moveTo x y, sty⟩ x y rfl]
      simp [inkPts, strokePts_single_move]
    | false =>
      have hD : drawSegmentInstant st ⟨.moveTo x y, sty⟩ =
          { st with
            ctx := { st.ctx with
              strokeStyle := styleStroke sty
              lineWidth := styleWidth sty
              path := [PathCmd.moveTo x y] }
            penX := x
            penY := y
            pathStarted := true } := by
        unfold drawSegmentInstant
        simp only [hps]
        rfl
      rw [hD]
      refine ⟨?_, rfl, rfl, rfl, fun _ => rfl, rfl, rfl, rfl⟩
      show inkPts st.ctx.ink
        = inkPts st.ctx.ink ∪ segStyledPts (st.penX, st.penY) ⟨Seg.moveTo x y, sty⟩
      rw [segStyledPts_move (st.penX, st.penY) ⟨Seg.moveTo x y, sty⟩ x y rfl]
      simp
  | lineTo x y =>
    have hD : drawSegmentInstant st ⟨.lineTo x y, sty⟩ =
        { st with
          ctx := { (ctxStroke { st.ctx with
              strokeStyle := styleStroke sty
              lineWidth := styleWidth sty
              path := [PathCmd.moveTo st.penX st.penY, PathCmd.lineTo x y] }) with
            path := [PathCmd.moveTo x y] }
          penX := x
          penY := y
          pathStarted := true } := by
      cases hps : st.pathStarted with
      | true =>
        have hpath := hB hps
        unfold drawSegmentInstant
        simp only [hps, hpath]
        rfl
      | false =>
        unfold drawSegmentInstant
        simp only [hps]
        rfl
    rw [hD]
    refine ⟨?_, rfl, rfl, rfl, fun _ => rfl, rfl, rfl, rfl⟩
    show inkPts (st.ctx.ink ++ [⟨styleStroke sty, styleWidth sty,
        [PathCmd.moveTo st.penX st.penY, PathCmd.lineTo x y]⟩])
      = inkPts st.ctx.ink ∪ segStyledPts (st.penX, st.penY) ⟨Seg.lineTo x y, sty⟩
    rw [inkPts_append]
    simp only [inkPts, Set.union_empty]
    rw [strokePts_anchor_cmd]
    rfl
  | quadTo x1 y1 x y =>
    have hD : drawSegmentInstant st ⟨.quadTo x1 y1 x y, sty⟩ =
        { st with
          ctx := { (ctxStroke { st.ctx with
              strokeStyle := styleStroke sty
              lineWidth := styleWidth sty
              path := [PathCmd.moveTo st.penX st.penY, PathCmd.quadTo x1 y1 x y] }) with
            path := [PathCmd.moveTo x y] }
          penX := x
          penY := y
          pathStarted := true } := by
      cases hps : st.pathStarted with
      | true =>
        have hpath := hB hps
        unfold drawSegmentInstant
        simp only [hps, hpath]
        rfl
      | false =>
        unfold drawSegmentInstant
        simp only [hps]
        rfl
    rw [hD]
    refine ⟨?_, rfl, rfl, rfl, fun _ => rfl, rfl, rfl, rfl⟩
    show inkPts (st.ctx.ink ++ [⟨styleStroke sty, styleWidth sty,
        [PathCmd.moveTo st.penX st.penY, PathCmd.quadTo x1 y1 x y]⟩])
      = inkPts st.ctx.ink ∪ segStyledPts (st.penX, st.penY) ⟨Seg.quadTo x1 y1 x y, sty⟩
    rw [inkPts_append]
    simp only [inkPts, Set.union_empty]
    rw [strokePts_anchor_cmd]
    rfl
  | cubicTo x1 y1 x2 y2 x y =>
    have hD : drawSegmentInstant st ⟨.cubicTo x1 y1 x2 y2 x y, sty⟩ =
        { st with
          ctx := { (ctxStroke { st.ctx with
              strokeStyle := styleStroke sty
              lineWidth := styleWidth sty
              path := [PathCmd.moveTo st.penX st.penY,
                PathCmd.cubicTo x1 y1 x2 y2 x y] }) with
            path := [PathCmd.moveTo x y] }
          penX := x
          penY := y
          pathStarted := true } := by
      cases hps : st.pathStarted with
      | true =>
        have hpath := hB hps
        unfold drawSegmentInstant
        simp only [hps, hpath]
        rfl
      | false =>
        unfold drawSegmentInstant
        simp only [hps]
        rfl
    rw [hD]
    refine ⟨?_, rfl, rfl, rfl, fun _ => rfl, rfl, rfl, rfl⟩
    show inkPts (st.ctx.ink ++ [⟨styleStroke sty, styleWidth sty,
        [PathCmd.moveTo st.penX st.penY, PathCmd.cubicTo x1 y1 x2 y2 x y]⟩])
      = inkPts st.ctx.ink ∪ segStyledPts (st.penX, st.penY) ⟨Seg.cubicTo x1 y1 x2 y2 x y, sty⟩
    rw [inkPts_append]
    simp only [inkPts, Set.union_empty]
    rw [strokePts_anchor_cmd]
    rfl
  | closePath x y =>
    cases hps : st.pathStarted with
    | false => exact absurd (hcp x y rfl) (by simp [hps])
    | true =>
      have hpath := hB hps
      have hD : drawSegmentInstant st ⟨.closePath x y, sty⟩ =
          { st with
            ctx := ctxStroke { st.ctx with
              strokeStyle := styleStroke sty
              lineWidth := styleWidth sty
              path := [PathCmd.moveTo st.penX st.penY, PathCmd.lineTo x y] }
            penX := x
            penY := y
            pathStarted := false } := by
        unfold drawSegmentInstant
        simp only [hps, hpath]
        rfl
      rw [hD]
      refine ⟨?_, rfl, rfl, rfl, fun h => Bool.noConfusion h, rfl, rfl, rfl⟩
      show inkPts (st.ctx.ink ++ [⟨styleStroke sty, styleWidth sty,
          [PathCmd.moveTo st.penX st.penY, PathCmd.lineTo x y]⟩])
        = inkPts st.ctx.ink ∪ segStyledPts (st.penX, st.penY) ⟨Seg.closePath x y, sty⟩
      rw [inkPts_append]
      simp only [inkPts, Set.union_empty]
      rw [strokePts_anchor_cmd]
      rfl


theorem drain_all : ∀ (q : List Segment) (st : RState),
    (st.pathStarted = true → st.ctx.path = [PathCmd.moveTo st.penX st.penY]) →
    wfFrom st.pathStarted q = true →
    st.queue = q →
    inkPts (drainList st q).ctx.ink = inkPts st.ctx.ink ∪ segsPts (st.penX, st.penY) q ∧
    (drainList st q).penX = (lastEnd (st.penX, st.penY) q).1 ∧
    (drainList st q).penY = (lastEnd (st.penX, st.penY) q).2 ∧
    (drainList st q).pathStarted = foldFlag st.pathStarted q ∧
    (drainList st q).queue = [] ∧
    (drainList st q).isDrawing = st.isDrawing ∧
    (drainList st q).currentSegment = st.currentSegment := by
  intro q
  induction q with
  | nil =>
    intro st hB hwf hq
    refine ⟨?_, rfl, rfl, rfl, hq, rfl, rfl⟩
    simp [drainList, segsPts]
  | cons s rest ih =>
    intro st hB hwf hq
    obtain ⟨hcp, hwf2⟩ := wfFrom_cons hwf
    obtain ⟨i1, i2, i3, i4, i5, i6, i7, i8⟩ :=
      instant_step { st with queue := rest } s hB hcp
    have hpen2 : ((drawSegmentInstant { st with queue := rest } s).penX,
        (drawSegmentInstant { st with queue := rest } s).penY) = s.seg.endPt := by
      rw [i2, i3]
    obtain ⟨j1, j2, j3, j4, j5, j6, j7⟩ :=
      ih (drawSegmentInstant { st with queue := rest } s) i5
        (by rw [i4]; exact hwf2) i6
    simp only [drainList]
    refine ⟨?_, ?_, ?_, ?_, j5, ?_, ?_⟩
    · rw [j1, i1]
      show inkPts st.ctx.ink ∪ segStyledPts (st.penX, st.penY) s ∪
          segsPts ((drawSegmentInstant { st with queue := rest } s).penX,
            (drawSegmentInstant { st with queue := rest } s).penY) rest
        = inkPts st.ctx.ink ∪ segsPts (st.penX, st.penY) (s :: rest)
      rw [hpen2, Set.union_assoc]
      rfl
    · rw [j2, hpen2]
      rfl
    · rw [j3, hpen2]
      rfl
    · rw [j4, i4]
      rfl
    · rw [j6, i7]
    · rw [j7, i8]


theorem styled_mono {col : Str} {w : ℚ} {S1 S2 : Set (ℚ × ℚ)} (h : S1 ⊆ S2) :
    { x : StyledPt | ∃ q, q ∈ S1 ∧ x = (col, w, q.1, q.2) } ⊆
      { x : StyledPt | ∃ q, q ∈ S2 ∧ x = (col, w, q.1, q.2) } := by
  rintro x ⟨q, hq, he⟩
  exact ⟨q, h hq, he⟩


theorem rinvB_step (segs done : List Segment) (s : Segment) (st : RState)
    (h : RInvB segs done s st) : RInv segs (drawE st).1 := by
  obtain ⟨b1, b2, b3, b4, b5, b6, b7, b8, b9, b10, b11, b12⟩ := h
  have hanchor : (st.segmentStartX, st.segmentStartY) = lastEnd (0, 0) done := by
    rw [b7, b8]
  have hadv := advance_eq st s b3 b4
  have hdE := drawE_current st s b5 b3
  by_cases hcomp : 1 ≤ min 1 (st.segmentProgress + incOf st)
  · have hprog1 : min 1 (st.segmentProgress + incOf st) = 1 :=
      le_antisymm (min_le_left _ _) hcomp
    rw [hprog1, if_pos le_rfl] at hadv
    have hAc : (advanceSegmentAnimation st).currentSegment = none := by
      rw [hadv]
    have hAq : (advanceSegmentAnimation st).queue = st.queue := by
      rw [hadv]
    have hApx : (advanceSegmentAnimation st).penX = s.seg.endPt.1 := by
      rw [hadv]
    have hApy : (advanceSegmentAnimation st).penY = s.seg.endPt.2 := by
      rw [hadv]
    have hAps : (advanceSegmentAnimation st).pathStarted = flagAfterSeg s.seg := by
      rw [hadv]
    have hAdr : (advanceSegmentAnimation st).isDrawing = st.isDrawing := by
      rw [hadv]
    have hApath : (advanceSegmentAnimation st).ctx.path
        = [PathCmd.moveTo s.seg.endPt.1 s.seg.endPt.2] := by
      rw [hadv]
    have hAink : inkPts (advanceSegmentAnimation st).ctx.ink
        = inkPts st.ctx.ink ∪ segStyledPts (st.segmentStartX, st.segmentStartY) s := by
      rw [hadv]
      show inkPts (st.ctx.ink ++ [⟨st.ctx.strokeStyle, st.ctx.lineWidth,
        [PathCmd.moveTo st.segmentStartX st.segmentStartY,
          partialCmd s.seg st.segmentStartX st.segmentStartY 1]⟩]) = _
      rw [inkPts_append]
      simp only [inkPts, Set.union_empty]
      rw [b9, b10, strokePts_anchor_cmd]
      rw [show cmdPts (st.segmentStartX, st.segmentStartY)
          (partialCmd s.seg st.segmentStartX st.segmentStartY 1)
        = segFullPts (st.segmentStartX, st.segmentStartY) s.seg from piece_full s.seg _ _]
      rfl
    have hinkA : inkPts (advanceSegmentAnimation st).ctx.ink = segsPts (0, 0) (done ++ [s]) := by
      rw [hAink, ink_absorb b11 b12, segsPts_append]
      rw [← hanchor]
      simp [segsPts]
    rw [hAc] at hdE
    simp only [Option.isSome_none, Bool.false_or] at hdE
    cases hqr : st.queue with
    | nil =>
      have hc1 : ¬((decide ((advanceSegmentAnimation st).queue ≠ [])) = true) := by
        rw [hAq, hqr]
        simp
      rw [if_neg hc1] at hdE
      rw [if_pos trivial] at hdE
      have h1' : (drawE st).1 = { advanceSegmentAnimation st with isDrawing := false } := by
        rw [hdE]
      left
      refine ⟨done ++ [s], ?_, ?_, ?_, ?_, ?_, ?_, ?_, ?_, ?_⟩
      · rw [h1']
        show segs = (done ++ [s]) ++ (advanceSegmentAnimation st).queue
        rw [hAq, hqr, b1, hqr]
        simp
      · rw [h1']
        show wfFrom (foldFlag false (done ++ [s])) (advanceSegmentAnimation st).queue = true
        rw [hAq, hqr, foldFlag_append]
        simp only [foldFlag]
        cases hsg : s.seg <;> simp [wfFrom]
      · rw [h1']
        show (advanceSegmentAnimation st).currentSegment = none
        exact hAc
      · rw [h1']
        show (advanceSegmentAnimation st).penX = (lastEnd (0, 0) (done ++ [s])).1
        rw [hApx, lastEnd_append]
        simp [lastEnd]
      · rw [h1']
        show (advanceSegmentAnimation st).penY = (lastEnd (0, 0) (done ++ [s])).2
        rw [hApy, lastEnd_append]
        simp [lastEnd]
      · rw [h1']
        show (advanceSegmentAnimation st).pathStarted = foldFlag false (done ++ [s])
        rw [hAps, foldFlag_append]
        simp [foldFlag]
      · rw [h1']
        intro _
        show (advanceSegmentAnimation st).ctx.path = _
        rw [hApath, hApx, hApy]
      · rw [h1']
        show inkPts (advanceSegmentAnimation st).ctx.ink = segsPts (0, 0) (done ++ [s])
        exact hinkA
      · rw [h1']
        intro _
        show (advanceSegmentAnimation st).queue = []
        rw [hAq, hqr]
    | cons r2 rest2 =>
      have hc1 : (decide ((advanceSegmentAnimation st).queue ≠ [])) = true := by
        rw [hAq, hqr]
        simp
      rw [if_pos hc1] at hdE
      rw [if_pos trivial] at hdE
      have h1' : (drawE st).1 = advanceSegmentAnimation st := by
        rw [hdE]
      left
      refine ⟨done ++ [s], ?_, ?_, ?_, ?_, ?_, ?_, ?_, ?_, ?_⟩
      · rw [h1', hAq, b1]
        simp
      · rw [h1', hAq, foldFlag_append]
        simp only [foldFlag]
        exact b2
      · rw [h1']
        exact hAc
      · rw [h1', hApx, lastEnd_append]
        simp [lastEnd]
      · rw [h1', hApy, lastEnd_append]
        simp [lastEnd]
      · rw [h1', hAps, foldFlag_append]
        simp [foldFlag]
      · rw [h1']
        intro _
        rw [hApath, hApx, hApy]
      · rw [h1']
        exact hinkA
      · rw [h1']
        intro hf
        exact Bool.noConfusion (b5.symm.trans (hAdr.symm.trans hf))
  · push_neg at hcomp
    have hlt : st.segmentProgress + incOf st < 1 := by
      by_contra hge
      push_neg at hge
      rw [min_eq_left hge] at hcomp
      exact lt_irrefl 1 hcomp
    have hprogle : min 1 (st.segmentProgress + incOf st) = st.segmentProgress + incOf st :=
      min_eq_right (le_of_lt hlt)
    rw [if_neg (not_le.mpr hcomp)] at hadv
    have hAc : (advanceSegmentAnimation st).currentSegment = some s := by
      rw [hadv]
      exact b3
    have hAq : (advanceSegmentAnimation st).queue = st.queue := by
      rw [hadv]
    have hAdr : (advanceSegmentAnimation st).isDrawing = true := by
      rw [hadv]
      exact b5
    have hApr : 0 ≤ (advanceSegmentAnimation st).segmentProgress := by
      rw [hadv]
      show 0 ≤ min 1 (st.segmentProgress + incOf st)
      have := incOf_pos st
      exact le_min (by norm_num) (by linarith)
    have hAsx : (advanceSegmentAnimation st).segmentStartX = st.segmentStartX := by
      rw [hadv]
    have hAsy : (advanceSegmentAnimation st).segmentStartY = st.segmentStartY := by
      rw [hadv]
    have hAss : (advanceSegmentAnimation st).ctx.strokeStyle = styleStroke s.style := by
      rw [hadv]
      exact b9
    have hAlw : (advanceSegmentAnimation st).ctx.lineWidth = styleWidth s.style := by
      rw [hadv]
      exact b10
    have hAink : inkPts (advanceSegmentAnimation st).ctx.ink
        = inkPts st.ctx.ink ∪
          strokePts ⟨st.ctx.strokeStyle, st.ctx.lineWidth,
            [PathCmd.moveTo st.segmentStartX st.segmentStartY,
              partialCmd s.seg st.segmentStartX st.segmentStartY
                (min 1 (st.segmentProgress + incOf st))]⟩ := by
      rw [hadv]
      show inkPts (st.ctx.ink ++ [⟨st.ctx.strokeStyle, st.ctx.lineWidth,
        [PathCmd.moveTo st.segmentStartX st.segmentStartY,
          partialCmd s.seg st.segmentStartX st.segmentStartY
            (min 1 (st.segmentProgress + incOf st))]⟩]) = _
      rw [inkPts_append]
      simp only [inkPts, Set.union_empty]
    have hpieceSub : strokePts ⟨st.ctx.strokeStyle, st.ctx.lineWidth,
        [PathCmd.moveTo st.segmentStartX st.segmentStartY,
          partialCmd s.seg st.segmentStartX st.segmentStartY
            (min 1 (st.segmentProgress + incOf st))]⟩ ⊆
        segStyledPts (st.segmentStartX, st.segmentStartY) s := by
      rw [b9, b10, strokePts_anchor_cmd]
      have hsub := piece_subset s.seg st.segmentStartX st.segmentStartY
        (min 1 (st.segmentProgress + incOf st))
        (by have := incOf_pos st; exact le_min (by norm_num) (by linarith))
        (min_le_left _ _)
      exact styled_mono hsub
    have hcond : ((advanceSegmentAnimation st).currentSegment.isSome
        || decide ((advanceSegmentAnimation st).queue ≠ [])) = true := by
      rw [hAc]
      rfl
    rw [if_pos hcond] at hdE
    have h1' : (drawE st).1 = advanceSegmentAnimation st := by
      rw [hdE]
    right
    refine ⟨done, s, ?_, ?_, ?_, b4, ?_, ?_, ?_, ?_, ?_, ?_, ?_, ?_⟩
    · rw [h1', hAq]
      exact b1
    · rw [h1', hAq]
      exact b2
    · rw [h1']
      exact hAc
    · rw [h1']
      exact hAdr
    · rw [h1']
      exact hApr
    · rw [h1', hAsx, b7]
    · rw [h1', hAsy, b8]
    · rw [h1']
      exact hAss
    · rw [h1']
      exact hAlw
    · rw [h1', hAink]
      exact le_trans b11 Set.subset_union_left
    · rw [h1', hAink, hAsx, hAsy]
      exact Set.union_subset b12 (le_trans hpieceSub Set.subset_union_right)


theorem rinvA_moveTo_begin (segs done : List Segment) (s : Segment) (st : RState)
    (mx my : ℚ) (hsg : s.seg = .moveTo mx my)
    (e1 : segs = done ++ st.queue) (e2 : wfFrom (foldFlag false done) st.queue = true)
    (e3 : st.currentSegment = none) (e4 : st.penX = (lastEnd (0, 0) done).1)
    (e5 : st.penY = (lastEnd (0, 0) done).2) (e6 : st.pathStarted = foldFlag false done)
    (e7 : st.pathStarted = true → st.ctx.path = [PathCmd.moveTo st.penX st.penY])
    (e8 : inkPts st.ctx.ink = segsPts (0, 0) done)
    (hdr : st.isDrawing = true) (rest : List Segment) (hq : st.queue = s :: rest) :
    RInv segs (drawE st).1 := by
  have hbegin := drawE_begin st s rest hdr e3 hq
  rw [hbegin]
  obtain ⟨hcp, hwf2⟩ := wfFrom_cons (hq ▸ e2)
  have h1B : (beginSegmentAnimation { st with queue := rest } s).isDrawing = true := hdr
  have hcB : (beginSegmentAnimation { st with queue := rest } s).currentSegment = some s := rfl
  have hadv := advance_moveTo (beginSegmentAnimation { st with queue := rest } s) s mx my hcB hsg
  have hdE := drawE_current (beginSegmentAnimation { st with queue := rest } s) s h1B hcB
  have hAc : (advanceSegmentAnimation
      (beginSegmentAnimation { st with queue := rest } s)).currentSegment = none := by
    rw [hadv] <;> rfl
  have hAq : (advanceSegmentAnimation
      (beginSegmentAnimation { st with queue := rest } s)).queue = rest := by
    rw [hadv] <;> rfl
  have hApx : (advanceSegmentAnimation
      (beginSegmentAnimation { st with queue := rest } s)).penX = mx := by
    rw [hadv] <;> rfl
  have hApy : (advanceSegmentAnimation
      (beginSegmentAnimation { st with queue := rest } s)).penY = my := by
    rw [hadv] <;> rfl
  have hAps : (advanceSegmentAnimation
      (beginSegmentAnimation { st with queue := rest } s)).pathStarted = true := by
    rw [hadv] <;> rfl
  have hAdr : (advanceSegmentAnimation
      (beginSegmentAnimation { st with queue := rest } s)).isDrawing = true := by
    rw [hadv]
    exact hdr
  have hApath : (advanceSegmentAnimation
      (beginSegmentAnimation { st with queue := rest } s)).ctx.path
      = [PathCmd.moveTo mx my] := by
    rw [hadv] <;> rfl
  have hAink : inkPts (advanceSegmentAnimation
      (beginSegmentAnimation { st with queue := rest } s)).ctx.ink = segsPts (0, 0) done := by
    rw [hadv]
    by_cases hps : (beginSegmentAnimation { st with queue := rest } s).pathStarted = true
    · rw [if_pos hps]
      show inkPts (st.ctx.ink ++ [⟨styleStroke s.style, styleWidth s.style, st.ctx.path⟩]) = _
      rw [e7 hps, inkPts_append]
      simp only [inkPts, Set.union_empty]
      rw [strokePts_single_move, Set.union_empty]
      exact e8
    · rw [if_neg hps]
      show inkPts st.ctx.ink = _
      exact e8
  have hdone : segsPts (0, 0) (done ++ [s]) = segsPts (0, 0) done := by
    rw [segsPts_append]
    simp only [segsPts]
    rw [segStyledPts_move (lastEnd (0, 0) done) s mx my hsg]
    simp
  rw [hAc] at hdE
  simp only [Option.isSome_none, Bool.false_or] at hdE
  cases rest with
  | nil =>
    have hc1 : ¬((decide ((advanceSegmentAnimation
        (beginSegmentAnimation { st with queue := [] } s)).queue ≠ [])) = true) := by
      rw [hAq]
      simp
    rw [if_neg hc1] at hdE
    rw [if_pos trivial] at hdE
    have h1' : (drawE (beginSegmentAnimation { st with queue := [] } s)).1
        = { advanceSegmentAnimation
          (beginSegmentAnimation { st with queue := [] } s) with isDrawing := false } := by
      rw [hdE]
    left
    refine ⟨done ++ [s], ?_, ?_, ?_, ?_, ?_, ?_, ?_, ?_, ?_⟩
    · rw [h1']
      show segs = (done ++ [s]) ++ (advanceSegmentAnimation
        (beginSegmentAnimation { st with queue := [] } s)).queue
      rw [hAq, e1, hq]
      simp
    · rw [h1']
      show wfFrom (foldFlag false (done ++ [s])) (advanceSegmentAnimation
        (beginSegmentAnimation { st with queue := [] } s)).queue = true
      rw [hAq, foldFlag_append]
      simp [wfFrom, foldFlag]
    · rw [h1']
      exact hAc
    · rw [h1']
      show (advanceSegmentAnimation
        (beginSegmentAnimation { st with queue := [] } s)).penX = _
      rw [hApx, lastEnd_append]
      simp [lastEnd, hsg, Seg.endPt]
    · rw [h1']
      show (advanceSegmentAnimation
        (beginSegmentAnimation { st with queue := [] } s)).penY = _
      rw [hApy, lastEnd_append]
      simp [lastEnd, hsg, Seg.endPt]
    · rw [h1']
      show (advanceSegmentAnimation
        (beginSegmentAnimation { st with queue := [] } s)).pathStarted = _
      rw [hAps, foldFlag_append]
      simp [foldFlag, flagAfterSeg, hsg]
    · rw [h1']
      intro _
      show (advanceSegmentAnimation
        (beginSegmentAnimation { st with queue := [] } s)).ctx.path = _
      rw [hApath, hApx, hApy]
    · rw [h1']
      show inkPts (advanceSegmentAnimation
        (beginSegmentAnimation { st with queue := [] } s)).ctx.ink = _
      rw [hAink, hdone]
    · rw [h1']
      intro _
      show (advanceSegmentAnimation
        (beginSegmentAnimation { st with queue := [] } s)).queue = []
      exact hAq
  | cons r2 rest2 =>
    have hc1 : (decide ((advanceSegmentAnimation
        (beginSegmentAnimation { st with queue := r2 :: rest2 } s)).queue ≠ [])) = true := by
      rw [hAq]
      simp
    rw [if_pos hc1] at hdE
    rw [if_pos trivial] at hdE
    have h1' : (drawE (beginSegmentAnimation { st with queue := r2 :: rest2 } s)).1
        = advanceSegmentAnimation
          (beginSegmentAnimation { st with queue := r2 :: rest2 } s) := by
      rw [hdE]
    left
    refine ⟨done ++ [s], ?_, ?_, ?_, ?_, ?_, ?_, ?_, ?_, ?_⟩
    · rw [h1', hAq, e1, hq]
      simp
    · rw [h1', hAq, foldFlag_append]
      simp only [foldFlag]
      exact hwf2
    · rw [h1']
      exact hAc
    · rw [h1', hApx, lastEnd_append]
      simp [lastEnd, hsg, Seg.endPt]
    · rw [h1', hApy, lastEnd_append]
      simp [lastEnd, hsg, Seg.endPt]
    · rw [h1', hAps, foldFlag_append]
      simp [foldFlag, flagAfterSeg, hsg]
    · rw [h1']
      intro _
      rw [hApath, hApx, hApy]
    · rw [h1', hAink, hdone]
    · rw [h1']
      intro hf
      exact Bool.noConfusion (hAdr.symm.trans hf)

theorem rinvA_step (segs done : List Segment) (st : RState)
    (h : RInvA segs done st) : RInv segs (drawE st).1 := by
  obtain ⟨e1, e2, e3, e4, e5, e6, e7, e8, e9⟩ := h
  cases hdr : st.isDrawing with
  | false =>
    rw [drawE_notDrawing st hdr]
    exact Or.inl ⟨done, e1, e2, e3, e4, e5, e6, e7, e8, e9⟩
  | true =>
    cases hq : st.queue with
    | nil =>
      rw [drawE_idle st hdr e3 hq]
      left
      exact ⟨done, by rw [e1, hq], by rw [hq] at e2 ⊢; exact e2, e3, e4, e5, e6, e7, e8,
        fun _ => hq⟩
    | cons s rest =>
      cases hmov : s.seg.isMove with
      | true =>
        cases hsg : s.seg with
        | moveTo mx my =>
          exact rinvA_moveTo_begin segs done s st mx my hsg e1 e2 e3 e4 e5 e6 e7 e8 hdr rest hq
        | lineTo x y => rw [hsg] at hmov; simp [Seg.isMove] at hmov
        | quadTo x1 y1 x y => rw [hsg] at hmov; simp [Seg.isMove] at hmov
        | cubicTo x1 y1 x2 y2 x y => rw [hsg] at hmov; simp [Seg.isMove] at hmov
        | closePath x y => rw [hsg] at hmov; simp [Seg.isMove] at hmov
      | false =>
        obtain ⟨hcp, hwf2⟩ := wfFrom_cons (hq ▸ e2)
        rw [drawE_begin st s rest hdr e3 hq]
        refine rinvB_step segs done s (beginSegmentAnimation { st with queue := rest } s)
          ⟨?_, hwf2, rfl, hmov, hdr, le_refl 0, e4, e5, rfl, rfl, ?_, ?_⟩
        · show segs = done ++ s :: rest
          rw [e1, hq]
        · show segsPts (0, 0) done ⊆ inkPts st.ctx.ink
          exact e8.symm.le
        · show inkPts st.ctx.ink ⊆ segsPts (0, 0) done ∪
            segStyledPts (st.penX, st.penY) s
          exact le_trans e8.le Set.subset_union_left

theorem rinv_step (segs : List Segment) (st : RState) (h : RInv segs st) :
    RInv segs (drawE st).1 := by
  rcases h with ⟨done, hA⟩ | ⟨done, s, hB⟩
  · exact rinvA_step segs done st hA
  · exact rinvB_step segs done s st hB

theorem rinv_init (segs : List Segment) (hwf : wfFrom false segs = true) :
    RInv segs (startedWith segs) := by
  left
  exact ⟨[], rfl, hwf, rfl, rfl, rfl, rfl, fun h => Bool.noConfusion h, by simp [inkPts, segsPts],
    fun h => Bool.noConfusion h⟩

theorem rinv_run (segs : List Segment) (hwf : wfFrom false segs = true) :
    ∀ k, RInv segs (runE k (startedWith segs)).1 := by
  intro k
  induction k with
  | zero => exact rinv_init segs hwf
  | succ k ih =>
    have hstep : (runE (k + 1) (startedWith segs)).1
        = (drawE (runE k (startedWith segs)).1).1 := by
      rw [runE_add]
      simp only []
      rw [show runE 1 (runE k (startedWith segs)).1
        = ((drawE (runE k (startedWith segs)).1).1, (drawE (runE k (startedWith segs)).1).2)
        from by rw [runE_succ]; simp [runE]]
    rw [hstep]
    exact rinv_step segs (runE k (startedWith segs)).1 ih


theorem flush_A (segs done : List Segment) (st : RState) (h : RInvA segs done st) :
    FlushSpec segs (flush st) := by
  obtain ⟨e1, e2, e3, e4, e5, e6, e7, e8, e9⟩ := h
  have hfl : flush st = stopDrawing (drainList st st.queue) := by
    unfold flush
    rw [e3]
  obtain ⟨d1, d2, d3, d4, d5, d6, d7⟩ :=
    drain_all st.queue st e7 (by rw [e6]; exact e2) rfl
  have hpen : (st.penX, st.penY) = lastEnd (0, 0) done := by
    rw [e4, e5]
  refine ⟨?_, ?_, ?_, ?_, ?_⟩
  · rw [hfl]
    show inkPts (drainList st st.queue).ctx.ink = _
    rw [d1, e8, hpen, ← segsPts_append, ← e1]
  · rw [hfl]
    show (drainList st st.queue).penX = _
    rw [d2, hpen, ← lastEnd_append, ← e1]
  · rw [hfl]
    show (drainList st st.queue).penY = _
    rw [d3, hpen, ← lastEnd_append, ← e1]
  · rw [hfl]
    show (drainList st st.queue).pathStarted = _
    rw [d4, e6, ← foldFlag_append, ← e1]
  · rw [hfl]
    show hasPending (stopDrawing (drainList st st.queue)) = false
    simp [hasPending, stopDrawing, d5, d7, e3]

theorem flush_B (segs done : List Segment) (s : Segment) (st : RState)
    (h : RInvB segs done s st) : FlushSpec segs (flush st) := by
  obtain ⟨b1, b2, b3, b4, b5, b6, b7, b8, b9, b10, b11, b12⟩ := h
  have hanchor : (st.segmentStartX, st.segmentStartY) = lastEnd (0, 0) done := by
    rw [b7, b8]
  have b3' : ({ st with segmentProgress := (1 : ℚ) }).currentSegment = some s := b3
  have hadv := advance_eq { st with segmentProgress := (1 : ℚ) } s b3' b4
  have hprog1 : min 1 (({ st with segmentProgress := (1 : ℚ) }).segmentProgress
      + incOf { st with segmentProgress := (1 : ℚ) }) = 1 := by
    have hpos : (0 : ℚ) < incOf { st with segmentProgress := (1 : ℚ) } :=
      incOf_pos { st with segmentProgress := (1 : ℚ) }
    show min 1 ((1 : ℚ) + incOf { st with segmentProgress := (1 : ℚ) }) = 1
    rw [min_eq_left (by linarith)]
  rw [hprog1, if_pos le_rfl] at hadv
  have hfl : flush st = stopDrawing (drainList
      { advanceSegmentAnimation { st with segmentProgress := (1 : ℚ) } with
        currentSegment := none }
      ({ advanceSegmentAnimation { st with segmentProgress := (1 : ℚ) } with
        currentSegment := none }).queue) := by
    unfold flush
    rw [b3]
  have hA2q : ({ advanceSegmentAnimation { st with segmentProgress := (1 : ℚ) } with
      currentSegment := none }).queue = st.queue := by
    rw [hadv] <;> rfl
  have hA2px : ({ advanceSegmentAnimation { st with segmentProgress := (1 : ℚ) } with
      currentSegment := none }).penX = s.seg.endPt.1 := by
    rw [hadv] <;> rfl
  have hA2py : ({ advanceSegmentAnimation { st with segmentProgress := (1 : ℚ) } with
      currentSegment := none }).penY = s.seg.endPt.2 := by
    rw [hadv] <;> rfl
  have hA2ps : ({ advanceSegmentAnimation { st with segmentProgress := (1 : ℚ) } with
      currentSegment := none }).pathStarted = flagAfterSeg s.seg := by
    rw [hadv] <;> rfl
  have hA2path : ({ advanceSegmentAnimation { st with segmentProgress := (1 : ℚ) } with
      currentSegment := none }).ctx.path
      = [PathCmd.moveTo s.seg.endPt.1 s.seg.endPt.2] := by
    rw [hadv] <;> rfl
  have hA2ink : inkPts ({ advanceSegmentAnimation { st with segmentProgress := (1 : ℚ) } with
      currentSegment := none }).ctx.ink = segsPts (0, 0) (done ++ [s]) := by
    rw [hadv]
    show inkPts (st.ctx.ink ++ [⟨st.ctx.strokeStyle, st.ctx.lineWidth,
      [PathCmd.moveTo st.segmentStartX st.segmentStartY,
        partialCmd s.seg st.segmentStartX st.segmentStartY 1]⟩]) = _
    rw [inkPts_append]
    simp only [inkPts, Set.union_empty]
    rw [b9, b10, strokePts_anchor_cmd]
    rw [show cmdPts (st.segmentStartX, st.segmentStartY)
        (partialCmd s.seg st.segmentStartX st.segmentStartY 1)
      = segFullPts (st.segmentStartX, st.segmentStartY) s.seg from piece_full s.seg _ _]
    rw [show { x : StyledPt | ∃ q, q ∈ segFullPts (st.segmentStartX, st.segmentStartY) s.seg
        ∧ x = (styleStroke s.style, styleWidth s.style, q.1, q.2) }
      = segStyledPts (st.segmentStartX, st.segmentStartY) s from rfl]
    rw [ink_absorb b11 b12, segsPts_append, ← hanchor]
    simp [segsPts]
  have hpen2 : (({ advanceSegmentAnimation { st with segmentProgress := (1 : ℚ) } with
      currentSegment := none }).penX,
      ({ advanceSegmentAnimation { st with segmentProgress := (1 : ℚ) } with
      currentSegment := none }).penY) = lastEnd (0, 0) (done ++ [s]) := by
    rw [hA2px, hA2py, lastEnd_append]
    simp [lastEnd]
  obtain ⟨d1, d2, d3, d4, d5, d6, d7⟩ :=
    drain_all (({ advanceSegmentAnimation { st with segmentProgress := (1 : ℚ) } with
        currentSegment := none }).queue)
      ({ advanceSegmentAnimation { st with segmentProgress := (1 : ℚ) } with
        currentSegment := none })
      (fun _ => by rw [hA2path, hA2px, hA2py])
      (by rw [hA2ps, hA2q]; exact b2) rfl
  have hsegs : segs = (done ++ [s]) ++
      ({ advanceSegmentAnimation { st with segmentProgress := (1 : ℚ) } with
        currentSegment := none }).queue := by
    rw [hA2q, b1]
    simp
  refine ⟨?_, ?_, ?_, ?_, ?_⟩
  · rw [hfl]
    show inkPts (drainList _ _).ctx.ink = _
    rw [d1, hA2ink, hpen2, ← segsPts_append, ← hsegs]
  · rw [hfl]
    show (drainList _ _).penX = _
    rw [d2, hpen2, ← lastEnd_append, ← hsegs]
  · rw [hfl]
    show (drainList _ _).penY = _
    rw [d3, hpen2, ← lastEnd_append, ← hsegs]
  · rw [hfl]
    show (drainList _ _).pathStarted = _
    rw [d4, hA2ps]
    rw [show flagAfterSeg s.seg = foldFlag false (done ++ [s]) from by
      rw [foldFlag_append]; simp [foldFlag]]
    rw [← foldFlag_append, ← hsegs]
  · rw [hfl]
    show hasPending (stopDrawing (drainList _ _)) = false
    simp [hasPending, stopDrawing, d5, d7]

theorem pending_done (segs : List Segment) (st : RState) (h : RInv segs st)
    (hp : hasPending st = false) : FlushSpec segs st := by
  have hq : st.queue = [] := by
    by_contra hne
    simp [hasPending, hne] at hp
  have hdr : st.isDrawing = false := by
    by_contra hne
    simp [hasPending, hne] at hp
  have hcs : st.currentSegment = none := by
    cases hcs : st.currentSegment with
    | none => rfl
    | some s => simp [hasPending, hcs] at hp
  rcases h with ⟨done, e1, e2, e3, e4, e5, e6, e7, e8, e9⟩ | ⟨done, s, b1, b2, b3, b4, b5, hB⟩
  · have hds : done = segs := by
      rw [e1, hq]
      simp
    exact ⟨by rw [e8, hds], by rw [e4, hds], by rw [e5, hds], by rw [e6, hds], hp⟩
  · exact absurd (hdr.symm.trans b5) (by simp)

/-- C3 (amended): the unrestricted flush-equivalence claim fails when a
close-path arrives with no open sub-path (see the counterexample); under
the well-formedness condition that every `ClosePath` finds an open
sub-path, it holds: for every enqueued sequence and every number of frames
stepped, calling `flush()` there produces the reference surface, pen
position and stroke-open flag of the whole sequence with nothing pending,
and stepping the animation to completion without flushing reaches a state
with exactly the same observables. -/
theorem C3_flush_equivalence (segs : List Segment) (hwf : wfFrom false segs = true) :
    (∀ k, FlushSpec segs (flush (runE k (startedWith segs)).1)) ∧
    ∃ n st', runE n (startedWith segs) = (st', segs.map (fun g => Seg.endPt g.seg)) ∧
      FlushSpec segs st' := by
  constructor
  · intro k
    rcases rinv_run segs hwf k with ⟨done, hA⟩ | ⟨done, s, hB⟩
    · exact flush_A segs done _ hA
    · exact flush_B segs done s _ hB
  · obtain ⟨n, st', hrun, hpend, hx, hy⟩ := run_all segs (startedWith segs) rfl rfl rfl
    have hst : (runE n (startedWith segs)).1 = st' := by
      rw [hrun]
    refine ⟨n, st', hrun, ?_⟩
    have hrv := rinv_run segs hwf n
    rw [hst] at hrv
    exact pending_done segs st' hrv hpend

theorem C3_flush_equivalence_witness :
    wfFrom false [⟨Seg.moveTo 1 2, ⟨"#000".toList, 3⟩⟩] = true ∧
    ((∀ k, FlushSpec [⟨Seg.moveTo 1 2, ⟨"#000".toList, 3⟩⟩]
        (flush (runE k (startedWith [⟨Seg.moveTo 1 2, ⟨"#000".toList, 3⟩⟩])).1)) ∧
      ∃ n st', runE n (startedWith [⟨Seg.moveTo 1 2, ⟨"#000".toList, 3⟩⟩])
          = (st', ([⟨Seg.moveTo 1 2, ⟨"#000".toList, 3⟩⟩] : List Segment).map
              (fun g => Seg.endPt g.seg)) ∧
        FlushSpec [⟨Seg.moveTo 1 2, ⟨"#000".toList, 3⟩⟩] st') :=
  ⟨rfl, C3_flush_equivalence [⟨Seg.moveTo 1 2, ⟨"#000".toList, 3⟩⟩] rfl⟩


/-- C4 (code bug): the claim says every `feed(fragment)` call terminates,
and the spec's contract is "fully synchronous per fragment"; the code's own
comment on the numeric-token branch says "Skip ... (implicit command
repeat)".  But that branch runs `continue` without advancing `i`, so the
`while` loop of `parseD` spins forever as soon as a numeric token stands
where a command letter is expected — here the surplus `5` after the
close-path.  Evaluating the model at that input reaches exactly that
branch: the divergence flag is raised after the two segments emitted
before the loop jams, so this `feed` call never returns. -/
theorem C4_feed_nontermination :
    (feed initParser ("<svg><path d=\"M0 0 Z 5\"/></svg>".toList)).state.diverged = true ∧
    (feed initParser ("<svg><path d=\"M0 0 Z 5\"/></svg>".toList)).segs.map Segment.seg
      = [Seg.moveTo 0 0, Seg.closePath 0 0] := by
  constructor
  · with_unfolding_all decide
  · with_unfolding_all decide

/-- C5 counterexample: the first element sets the stroke width to `5`; the
second element's `stroke-width="oops"` fails `parseFloat`, and the segment
emitted after it carries width `3` — the hard-coded default of
`parseFloat(w) || 3` — not the previous numeric value `5` the claim
requires. -/
theorem C5_counterexample :
    ((feed initParser
        ("<svg><path d=\"M0 0\" stroke-width=\"5\"/><path d=\"L1 1\" stroke-width=\"oops\"/></svg>".toList)).segs.map
      (fun s => s.style.strokeWidth)) = [5, 3] ∧ (3 : ℚ) ≠ 5 := by
  constructor
  · with_unfolding_all decide
  · with_unfolding_all decide

/-- C5 amended: for every drawable element whose stroke-width attribute is
present but whose value parses to `NaN` or `0` (the cases `parseNum v = 0`
of the model), the current stroke width falls back to the default `3` —
regardless of the previous numeric value — all segments of the element are
emitted with width `3`, and no exception is raised (the call returns
normally). -/
theorem C5_width_default_fallback (attrs d v : Str) (sty : Style)
    (hd : (findDAttr '"' attrs).orElse (fun _ => findDAttr '\'' attrs) = some d)
    (hw : findAttrFrom widthPat attrs = some v)
    (hv : parseNum v = 0) :
    (parsePath attrs sty).style.strokeWidth = 3 ∧
    ∀ s ∈ (parsePath attrs sty).segs, s.style.strokeWidth = 3 := by
  unfold parsePath
  rw [hd, hw]
  simp [hv, List.mem_map]

/-- Witness for `C5_width_default_fallback` at a concrete malformed
stroke-width attribute. -/
theorem C5_width_default_fallback_witness :
    (parsePath ("d=\"M1 1\" stroke-width=\"abc\"".toList) ⟨"#000".toList, 7⟩).style.strokeWidth = 3 ∧
    ∀ s ∈ (parsePath ("d=\"M1 1\" stroke-width=\"abc\"".toList) ⟨"#000".toList, 7⟩).segs,
      s.style.strokeWidth = 3 :=
  C5_width_default_fallback ("d=\"M1 1\" stroke-width=\"abc\"".toList) ("M1 1".toList)
    ("abc".toList) ⟨"#000".toList, 7⟩ (by with_unfolding_all decide) (by with_unfolding_all decide) (by with_unfolding_all decide)

/-- C6: feeding the concrete document as three fragments split in the
middle of the path element emits exactly
`[MoveTo(10,10), LineTo(20,20), LineTo(30,10), ClosePath(10,10)]`, each
with style `{stroke: "#f00", strokeWidth: 3}`, and zero warnings. -/
theorem C6_concrete_scenario :
    feedMany initParser
        ["garbage<svg><pa".toList, "th d=\"M10 10 L20".toList,
         " 20 L30 10 Z\" stroke=\"#f00\"/></svg>".toList]
      = ⟨⟨"</svg>".toList, ⟨"#f00".toList, 3⟩, true, false⟩,
         [⟨Seg.moveTo 10 10, ⟨"#f00".toList, 3⟩⟩, ⟨Seg.lineTo 20 20, ⟨"#f00".toList, 3⟩⟩,
          ⟨Seg.lineTo 30 10, ⟨"#f00".toList, 3⟩⟩, ⟨Seg.closePath 10 10, ⟨"#f00".toList, 3⟩⟩],
         []⟩ := by
  with_unfolding_all decide

/-- C7: `d="M0 0 A5 5 0 0 1 10 10 L20 20"` emits exactly one
unsupported-command warning for the arc, no segment for it, consumes
exactly its seven parameters, and the following command parses correctly:
the emitted segments are exactly `MoveTo(0,0)` and `LineTo(20,20)`. -/
theorem C7_arc_skip_alignment :
    parseD ("M0 0 A5 5 0 0 1 10 10 L20 20".toList)
      = ⟨[Seg.moveTo 0 0, Seg.lineTo 20 20], [Warn.unknownCommand ['A']], false⟩ := by
  with_unfolding_all decide

/-- C8: one repetition of the relative-cubic loop (`case 'c'`) at pen
position `(px, py)` with six numeric offset tokens emits a `CubicTo` whose
control and end coordinates are each the pen position plus the
corresponding offset (independently, not a running sum), and continues
with the pen advanced by the final delta only. -/
theorem C8_relative_cubic (px py : ℚ) (t1 t2 t3 t4 t5 t6 : Str) (rest : List Str)
    (h1 : isNumTok t1 = true) (h2 : isNumTok t2 = true) (h3 : isNumTok t3 = true)
    (h4 : isNumTok t4 = true) (h5 : isNumTok t5 = true) (h6 : isNumTok t6 = true) :
    loopCubicRel (t1 :: t2 :: t3 :: t4 :: t5 :: t6 :: rest) px py =
      ⟨Seg.cubicTo (px + parseNum t1) (py + parseNum t2) (px + parseNum t3) (py + parseNum t4)
          (px + parseNum t5) (py + parseNum t6)
          :: (loopCubicRel rest (px + parseNum t5) (py + parseNum t6)).segs,
        (loopCubicRel rest (px + parseNum t5) (py + parseNum t6)).rest,
        (loopCubicRel rest (px + parseNum t5) (py + parseNum t6)).cx,
        (loopCubicRel rest (px + parseNum t5) (py + parseNum t6)).cy⟩ := by
  simp [loopCubicRel, h1]

/-- Witness for `C8_relative_cubic` at concrete tokens. -/
theorem C8_relative_cubic_witness :
    loopCubicRel [['1'], ['2'], ['3'], ['4'], ['5'], ['6']] 100 200 =
      ⟨Seg.cubicTo (100 + parseNum ['1']) (200 + parseNum ['2']) (100 + parseNum ['3'])
          (200 + parseNum ['4']) (100 + parseNum ['5']) (200 + parseNum ['6'])
          :: (loopCubicRel [] (100 + parseNum ['5']) (200 + parseNum ['6'])).segs,
        (loopCubicRel [] (100 + parseNum ['5']) (200 + parseNum ['6'])).rest,
        (loopCubicRel [] (100 + parseNum ['5']) (200 + parseNum ['6'])).cx,
        (loopCubicRel [] (100 + parseNum ['5']) (200 + parseNum ['6'])).cy⟩ :=
  C8_relative_cubic 100 200 ['1'] ['2'] ['3'] ['4'] ['5'] ['6'] []
    (by with_unfolding_all decide) (by with_unfolding_all decide) (by with_unfolding_all decide) (by with_unfolding_all decide) (by with_unfolding_all decide) (by with_unfolding_all decide)

/-- C9 counterexample: the claim says a relative command at the start of
one element resolves against the pen position left by the previous
element.  In the code `parseD` declares `currentX = 0, currentY = 0`
locally per call, so after `M10 10` in the first element, `l5 5` in the
second emits `LineTo(5,5)` — resolved from the origin — not the claimed
`LineTo(15,15)`. -/
theorem C9_counterexample :
    (feed initParser
        ("<svg><path d=\"M10 10\"/><path d=\"l5 5\"/></svg>".toList)).segs.map Segment.seg
      = [Seg.moveTo 10 10, Seg.lineTo 5 5] ∧
    Seg.lineTo 5 5 ≠ Seg.lineTo 15 15 := by
  constructor
  · with_unfolding_all decide
  · with_unfolding_all decide

/-- C9 amended: the pen and sub-path-start positions persist across
emitted segments within a single element's path data (the same relative
command inside one `d` resolves against the previous segment's endpoint),
but they are re-initialised to the origin for each drawable element: the
identical commands split over two elements resolve from `(0,0)`. -/
theorem C9_pen_reset_per_element :
    (feed initParser ("<svg><path d=\"M10 10 l5 5\"/></svg>".toList)).segs.map Segment.seg
      = [Seg.moveTo 10 10, Seg.lineTo 15 15] ∧
    (feed initParser
        ("<svg><path d=\"M10 10\"/><path d=\"l5 5\"/></svg>".toList)).segs.map Segment.seg
      = [Seg.moveTo 10 10, Seg.lineTo 5 5] := by
  constructor
  · with_unfolding_all decide
  · with_unfolding_all decide

/-- C10: when the instantaneous draw path processes a `ClosePath` segment
while no sub-path is open (`pathStarted = false`), the segment is a
complete no-op in the claimed sense: nothing is drawn, and the pen
position and the stroke-bookkeeping flag are unchanged. -/
theorem C10_instant_close_noop (st : RState) (x y : ℚ) (sty : Style)
    (h : st.pathStarted = false) :
    (drawSegmentInstant st ⟨Seg.closePath x y, sty⟩).ctx.ink = st.ctx.ink ∧
    (drawSegmentInstant st ⟨Seg.closePath x y, sty⟩).penX = st.penX ∧
    (drawSegmentInstant st ⟨Seg.closePath x y, sty⟩).penY = st.penY ∧
    (drawSegmentInstant st ⟨Seg.closePath x y, sty⟩).pathStarted = false := by
  simp [drawSegmentInstant, h]

/-- Witness for `C10_instant_close_noop` at the fresh renderer. -/
theorem C10_instant_close_noop_witness :
    (drawSegmentInstant freshR ⟨Seg.closePath 3 4, ⟨"#000".toList, 3⟩⟩).ctx.ink = freshR.ctx.ink ∧
    (drawSegmentInstant freshR ⟨Seg.closePath 3 4, ⟨"#000".toList, 3⟩⟩).penX = freshR.penX ∧
    (drawSegmentInstant freshR ⟨Seg.closePath 3 4, ⟨"#000".toList, 3⟩⟩).penY = freshR.penY ∧
    (drawSegmentInstant freshR ⟨Seg.closePath 3 4, ⟨"#000".toList, 3⟩⟩).pathStarted = false :=
  C10_instant_close_noop freshR 3 4 ⟨"#000".toList, 3⟩ (by with_unfolding_all decide)

/-- C3 counterexample: with the single enqueued segment `ClosePath(5,5)`
and the initial reachable state (zero steps taken), stepping the animation
to completion moves the pen to `(5,5)` (the animated close-path draws
unconditionally), while `flush()` at that state drains the queue through
`drawSegmentInstant`, whose close-path case is a no-op when no sub-path is
open: the pen stays at `(0,0)`.  The final pen positions differ, refuting
the unrestricted flush-equivalence claim. -/
theorem C3_counterexample :
    (flush (startedWith [⟨Seg.closePath 5 5, ⟨"#000".toList, 3⟩⟩])).penX = 0 ∧
    (runE 1 (startedWith [⟨Seg.closePath 5 5, ⟨"#000".toList, 3⟩⟩])).1.penX = 5 ∧
    hasPending (runE 1 (startedWith [⟨Seg.closePath 5 5, ⟨"#000".toList, 3⟩⟩])).1 = false ∧
    (0 : ℚ) ≠ 5 := by
  refine ⟨by with_unfolding_all decide, by with_unfolding_all decide, by with_unfolding_all decide, by with_unfolding_all decide⟩

end GoodDrawer
